import Mathlib

/-!
# rocFFT `radix_table.h`: launch-parameter heuristics

A shallow embedding of `library/src/include/radix_table.h` and the properties
of it that the specification states.

Conventions of the embedding

* `size_t` is the 64-bit unsigned type of the LP64 targets rocFFT builds for.
  Values are natural numbers; every product or sum of run-time quantities is
  reduced with `wrap` (modulo `2 ^ 64`), as unsigned arithmetic does.
* `assert` is active (a debug build): a failed assertion ends the call with
  `Outcome.abort`, naming the assertion that failed.  Integer division by zero
  (undefined behaviour in C++) is reported the same way.
* The `while` and `for` loops whose trip count depends on the input are
  modelled with fuel: each loop may run at most `fuel` iterations, and a loop
  that has not finished by then yields `Outcome.timeout`.
* Reference out-parameters (`workGroupSize`, `numTrans`) become the returned
  pair.
-/

namespace RadixTable

/-! ## Outcomes -/

/-- The ways a call can end abnormally. -/
inductive Fault where
  /-- `assert(MAX_WORK_GROUP_SIZE >= 64)` -/
  | maxWorkGroupSizeTooSmall
  /-- `assert(l == 1)`: the length has an unsupported prime factor -/
  | unsupportedLength
  /-- `assert(leastNumPerWI > 0 && length % leastNumPerWI == 0)` -/
  | leastNumPerWI
  /-- `assert(workGroupSize <= MAX_WORK_GROUP_SIZE)` -/
  | workGroupSize
  /-- integer division (or remainder) by zero -/
  | divideByZero
  /-- `assert(0)` in the `default` case of `GetBlockComputeTable` -/
  | blockComputeLength
  deriving DecidableEq, Repr

/-- Result of running a piece of the program with bounded fuel. -/
inductive Outcome (α : Type) where
  /-- normal return -/
  | ret (a : α)
  /-- a fatal assertion (or undefined behaviour) was hit -/
  | abort (f : Fault)
  /-- the fuel ran out before the loops finished -/
  | timeout
  deriving DecidableEq, Repr

/-- Sequencing: run `x`, and on normal return continue with `k`. -/
def Outcome.andThen {α β : Type} (x : Outcome α) (k : α → Outcome β) : Outcome β :=
  match x with
  | .ret a => k a
  | .abort f => .abort f
  | .timeout => .timeout

/-! ## Machine arithmetic -/

/-- Number of values of `size_t`. -/
def SIZE_T_RANGE : Nat := 2 ^ 64

/-- Unsigned wrap-around of `size_t` arithmetic. -/
def wrap (n : Nat) : Nat := n % SIZE_T_RANGE

/-- `#define MAX_WORK_GROUP_SIZE 1024` -/
def MAX_WORK_GROUP_SIZE : Nat := 1024

/-! ## `DetermineSizes` -/

/-- `size_t baseRadix[] = {13, 11, 7, 5, 3, 2}` -/
def baseRadix : List Nat := [13, 11, 7, 5, 3, 2]

/-- `std::map<size_t, size_t>`; `operator[]` on a key never written reads `0`. -/
abbrev PrimeMap := Nat → Nat

/-- The empty map. -/
def PrimeMap.empty : PrimeMap := fun _ => 0

/-- `m[key] = value` -/
def PrimeMap.set (m : PrimeMap) (key value : Nat) : PrimeMap :=
  fun k => if k = key then value else m k

/-- The inner loop `while(!(l % rad)) { l /= rad; e *= rad; }`, returning the
final `(l, e)`. -/
def stripRadix : Nat → Nat → Nat → Nat → Outcome (Nat × Nat)
  | 0, _, _, _ => .timeout
  | fuel + 1, rad, l, e =>
    if rad = 0 then .abort .divideByZero
    else if l % rad = 0 then stripRadix fuel rad (l / rad) (wrap (e * rad))
    else .ret (l, e)

/-- The outer loop `for(size_t r = 0; r < baseRadixSize; r++)` over the
remaining radices: strips each radix from `l` starting from `e = 1` and records
`primeFactorsExpanded[rad] = e`. -/
def factorLoop (fuel : Nat) : List Nat → Nat → PrimeMap → Outcome (Nat × PrimeMap)
  | [], l, pf => .ret (l, pf)
  | rad :: rest, l, pf =>
    match stripRadix fuel rad l 1 with
    | .ret (l1, e) => factorLoop fuel rest l1 (pf.set rad e)
    | .abort f => .abort f
    | .timeout => .timeout

/-- The `if`/`else if` chain of the composite branch that selects
`(leastNumPerWI, maxWorkGroupSize)` for the family of `length`. -/
def selectFamily (pf : PrimeMap) (length : Nat) : Nat × Nat :=
  if wrap (pf 2 * pf 3) = length then
    if length % 12 = 0 then (12, 128) else (6, 256)
  else if wrap (pf 2 * pf 5) = length then
    if length % 20 = 0 ∧ length ≠ 100 then (20, 64) else (10, 128)
  else if wrap (pf 2 * pf 7) = length then (14, 64)
  else if wrap (pf 3 * pf 5) = length then (15, 128)
  else if wrap (pf 3 * pf 7) = length then (21, 128)
  else if wrap (pf 5 * pf 7) = length then (35, 64)
  else if wrap (wrap (pf 2 * pf 3) * pf 5) = length then (30, 64)
  else if wrap (wrap (pf 2 * pf 3) * pf 7) = length then (42, 60)
  else if wrap (wrap (pf 2 * pf 5) * pf 7) = length then (70, 36)
  else if wrap (wrap (pf 3 * pf 5) * pf 7) = length then (105, 24)
  else if wrap (pf 2 * pf 11) = length then (22, 128)
  else if wrap (pf 2 * pf 13) = length then (26, 128)
  else (210, 12)

/-- The search loop
`for(size_t lnpi = leastNumPerWI; lnpi <= length; lnpi += leastNumPerWI)`
with its `continue` and `break`; returns the final value of `leastNumPerWI`
(`step` when the loop ends without reaching the `break`). -/
def searchLnpi : Nat → Nat → Nat → Nat → Outcome Nat
  | 0, _, _, _ => .timeout
  | fuel + 1, length, step, lnpi =>
    if lnpi ≤ length then
      if lnpi = 0 then .abort .divideByZero
      else if length % lnpi ≠ 0 then searchLnpi fuel length step (wrap (lnpi + step))
      else if length / lnpi ≤ MAX_WORK_GROUP_SIZE then .ret lnpi
      else searchLnpi fuel length step (wrap (lnpi + step))
    else .ret step

/-- The composite (`else`) branch of `DetermineSizes`, up to the assignment of
`workGroupSize`; returns `(workGroupSize, numTrans)`. -/
def compositeSizes (fuel : Nat) (pf : PrimeMap) (length : Nat) : Outcome (Nat × Nat) :=
  let leastNumPerWI := (selectFamily pf length).1
  let maxWorkGroupSize := (selectFamily pf length).2
  let maxWorkGroupSize :=
    if maxWorkGroupSize > MAX_WORK_GROUP_SIZE then MAX_WORK_GROUP_SIZE else maxWorkGroupSize
  if ¬ (leastNumPerWI > 0 ∧ length % leastNumPerWI = 0) then .abort .leastNumPerWI
  else
    (searchLnpi fuel length leastNumPerWI leastNumPerWI).andThen fun leastNumPerWI =>
      if leastNumPerWI = 0 then .abort .divideByZero
      else if length / leastNumPerWI = 0 then .abort .divideByZero
      else
        let numTrans := maxWorkGroupSize / (length / leastNumPerWI)
        let numTrans := if numTrans < 1 then 1 else numTrans
        .ret (wrap (numTrans * (length / leastNumPerWI)), numTrans)

/-- The rule shared by the pure odd-prime-power branches, for the prime `p` and
the work-group size chosen for it:
`numTrans = length >= p * workGroupSize ? 1 : (p * workGroupSize) / length`. -/
def primePowerSizes (p workGroupSize length : Nat) : Outcome (Nat × Nat) :=
  if length ≥ p * workGroupSize then .ret (workGroupSize, 1)
  else if length = 0 then .abort .divideByZero
  else .ret (workGroupSize, (p * workGroupSize) / length)

/-- The branch selection of `DetermineSizes` after the factorisation, up to (not
including) the final assertion; returns `(workGroupSize, numTrans)`. -/
def branchSizes (fuel : Nat) (pf : PrimeMap) (length : Nat) : Outcome (Nat × Nat) :=
  if pf 2 = length then
    if length ≥ 1024 then
      .ret (if MAX_WORK_GROUP_SIZE ≥ 256 then 256 else MAX_WORK_GROUP_SIZE, 1)
    else if length = 512 then .ret (64, 1)
    else if length ≥ 16 then .ret (64, 256 / length)
    else if length = 0 then .abort .divideByZero
    else .ret (64, 128 / length)
  else if pf 3 = length then
    primePowerSizes 3 (if MAX_WORK_GROUP_SIZE ≥ 256 then 243 else 27) length
  else if pf 5 = length then
    primePowerSizes 5 (if MAX_WORK_GROUP_SIZE ≥ 128 then 125 else 25) length
  else if pf 7 = length then primePowerSizes 7 49 length
  else if pf 11 = length then primePowerSizes 11 121 length
  else if pf 13 = length then primePowerSizes 13 169 length
  else compositeSizes fuel pf length

/-- The closing `assert(workGroupSize <= MAX_WORK_GROUP_SIZE)`, applied to the
computed `(workGroupSize, numTrans)`. -/
def finalCheck (sizes : Nat × Nat) : Outcome (Nat × Nat) :=
  if sizes.1 ≤ MAX_WORK_GROUP_SIZE then .ret sizes else .abort .workGroupSize

/-- `DetermineSizes(length, workGroupSize, numTrans)`: the returned pair is
`(workGroupSize, numTrans)`. -/
def DetermineSizes (fuel length : Nat) : Outcome (Nat × Nat) :=
  if ¬ (MAX_WORK_GROUP_SIZE ≥ 64) then .abort .maxWorkGroupSizeTooSmall
  else if length = 1 then .ret (64, 64)
  else
    (factorLoop fuel baseRadix length PrimeMap.empty).andThen fun (l, primeFactorsExpanded) =>
      if l ≠ 1 then .abort .unsupportedLength
      else (branchSizes fuel primeFactorsExpanded length).andThen finalCheck

/-! ## The small-size table -/

/-- `struct SpecRecord` -/
structure SpecRecord where
  length : Nat
  workGroupSize : Nat
  numTransforms : Nat
  numPasses : Nat
  /-- `size_t radices[12]` -/
  radices : List Nat
  deriving DecidableEq, Repr

/-- `GetRecord()`: the table `specRecord`. -/
def GetRecord : List SpecRecord :=
  [ ⟨4096, 256, 1, 3, [16, 16, 16, 0, 0, 0, 0, 0, 0, 0, 0, 0]⟩,
    ⟨2048, 256, 1, 4, [8, 8, 8, 4, 0, 0, 0, 0, 0, 0, 0, 0]⟩,
    ⟨1024, 128, 1, 4, [8, 8, 4, 4, 0, 0, 0, 0, 0, 0, 0, 0]⟩,
    ⟨512, 64, 1, 3, [8, 8, 8, 0, 0, 0, 0, 0, 0, 0, 0, 0]⟩,
    ⟨256, 64, 1, 4, [4, 4, 4, 4, 0, 0, 0, 0, 0, 0, 0, 0]⟩,
    ⟨128, 64, 4, 3, [8, 4, 4, 0, 0, 0, 0, 0, 0, 0, 0, 0]⟩,
    ⟨64, 64, 4, 3, [4, 4, 4, 0, 0, 0, 0, 0, 0, 0, 0, 0]⟩,
    ⟨32, 64, 16, 2, [8, 4, 0, 0, 0, 0, 0, 0, 0, 0, 0, 0]⟩,
    ⟨16, 64, 16, 2, [4, 4, 0, 0, 0, 0, 0, 0, 0, 0, 0, 0]⟩,
    ⟨8, 64, 32, 2, [4, 2, 0, 0, 0, 0, 0, 0, 0, 0, 0, 0]⟩,
    ⟨4, 64, 32, 2, [2, 2, 0, 0, 0, 0, 0, 0, 0, 0, 0, 0]⟩,
    ⟨2, 64, 64, 1, [2, 0, 0, 0, 0, 0, 0, 0, 0, 0, 0, 0]⟩ ]

/-- The non-zero entries of a record's `radices`, in order. -/
def SpecRecord.nonZeroRadices (r : SpecRecord) : List Nat :=
  r.radices.filter (fun x => x ≠ 0)

/-! ## The 2D single-kernel enumeration -/

/-- Modelled from the spec: the enumeration `rocfft_precision` is declared in
`rocfft.h`, which is not among the sources; the spec gives it the two values
single and double. -/
inductive rocfft_precision where
  | rocfft_precision_single
  | rocfft_precision_double
  deriving DecidableEq, Repr

/-- The callback type `std::function<void(size_t, size_t&, size_t&)>`: from a
length to `(workGroupSize, numTransforms)`, or an abnormal end of the call. -/
abbrev Provider := Nat → Outcome (Nat × Nat)

/-- `Get2DSingleThreadCount(length0, length1, _GetWGSAndNT)` -/
def Get2DSingleThreadCount (length0 length1 : Nat) (_GetWGSAndNT : Provider) : Outcome Nat :=
  (_GetWGSAndNT length0).andThen fun (workGroupSize0, numTransforms0) =>
    (_GetWGSAndNT length1).andThen fun (workGroupSize1, numTransforms1) =>
      if workGroupSize0 = 0 then .abort .divideByZero
      else
        let cnPerWI0 := wrap (numTransforms0 * length0) / workGroupSize0
        if workGroupSize1 = 0 then .abort .divideByZero
        else
          let cnPerWI1 := wrap (numTransforms1 * length1) / workGroupSize1
          let complexNumsPerTransform := wrap (length0 * length1)
          if cnPerWI0 = 0 then .abort .divideByZero
          else
            let numThreads0 := complexNumsPerTransform / cnPerWI0
            if cnPerWI1 = 0 then .abort .divideByZero
            else
              let numThreads1 := complexNumsPerTransform / cnPerWI1
              .ret (max numThreads0 numThreads1)

/-- `Add2DSingleSize(i, j, realSizeBytes, elementSizeBytes, ldsSizeBytes,
_GetWGSAndNT, retval)`; returns the updated `retval`. -/
def Add2DSingleSize (i j realSizeBytes elementSizeBytes ldsSizeBytes : Nat)
    (_GetWGSAndNT : Provider) (retval : List (Nat × Nat)) : Outcome (List (Nat × Nat)) :=
  if wrap (wrap (wrap (i * j) * elementSizeBytes) + wrap (wrap (i * j) * realSizeBytes))
      ≤ ldsSizeBytes then
    (Get2DSingleThreadCount i j _GetWGSAndNT).andThen fun numThreads =>
      if numThreads < MAX_WORK_GROUP_SIZE then .ret (retval ++ [(i, j)])
      else .ret retval
  else .ret retval

/-- Iterations of a loop `for(size_t i = start; i >= min; i /= rad) body`,
threading the state `s` through the body. -/
def forDivAux {σ : Type} (rad min : Nat) (body : Nat → σ → Outcome σ) :
    Nat → Nat → σ → Outcome σ
  | 0, _, _ => .timeout
  | fuel + 1, i, s =>
    if i ≥ min then
      (body i s).andThen fun s1 =>
        if rad = 0 then .abort .divideByZero else forDivAux rad min body fuel (i / rad) s1
    else .ret s

/-- The loop `for(size_t i = start; i >= min; i /= rad) body`.  The loops of
`Single2DSizes` have constant bounds; `start + 1` iterations are allowed, which
the loop cannot exceed when `min ≥ 1` and `rad ≥ 2`. -/
def forDiv {σ : Type} (start min rad : Nat) (body : Nat → σ → Outcome σ) (s : σ) : Outcome σ :=
  forDivAux rad min body (start + 1) start s

/-- `static const size_t MAX_LDS_SIZE_BYTES = 64 * 1024` -/
def MAX_LDS_SIZE_BYTES : Nat := 64 * 1024

def MAX_2D_POW2 : Nat := 512
def MIN_2D_POW2 : Nat := 4
def MAX_2D_POW3 : Nat := 729
def MIN_2D_POW3 : Nat := 9
def MAX_2D_POW5 : Nat := 625
def MIN_2D_POW5 : Nat := 25

/-- The clamping of `ldsSizeBytes` at the head of `Single2DSizes`. -/
def clampLds (ldsSizeBytes : Nat) : Nat :=
  if ldsSizeBytes = 0 then MAX_LDS_SIZE_BYTES else min ldsSizeBytes MAX_LDS_SIZE_BYTES

/-- `precision == rocfft_precision_single ? sizeof(float) : sizeof(double)`, with
`sizeof(float) = 4` and `sizeof(double) = 8`. -/
def realSize (precision : rocfft_precision) : Nat :=
  if precision = .rocfft_precision_single then 4 else 8

/-- One pair of nested loops of `Single2DSizes`: `i` runs over the family
`(max0, min0, rad0)` and, inside, `j` over `(max1, min1, rad1)`. -/
def enumPass (max0 min0 rad0 max1 min1 rad1 : Nat)
    (realSizeBytes elementSizeBytes ldsSizeBytes : Nat) (_GetWGSAndNT : Provider)
    (retval : List (Nat × Nat)) : Outcome (List (Nat × Nat)) :=
  forDiv max0 min0 rad0 (fun i retval =>
    forDiv max1 min1 rad1 (fun j retval =>
      Add2DSingleSize i j realSizeBytes elementSizeBytes ldsSizeBytes _GetWGSAndNT retval)
      retval) retval

/-- The body of `Single2DSizes` after the clamping of `ldsSizeBytes`: the nine
enumeration passes in source order. -/
def enumerate2D (ldsSizeBytes : Nat) (precision : rocfft_precision) (_GetWGSAndNT : Provider) :
    Outcome (List (Nat × Nat)) :=
  let realSizeBytes := realSize precision
  let elementSizeBytes := 2 * realSizeBytes
  let pass := fun max0 min0 rad0 max1 min1 rad1 retval =>
    enumPass max0 min0 rad0 max1 min1 rad1 realSizeBytes elementSizeBytes ldsSizeBytes
      _GetWGSAndNT retval
  (pass MAX_2D_POW2 MIN_2D_POW2 2 MAX_2D_POW2 MIN_2D_POW2 2 []).andThen fun retval =>
  (pass MAX_2D_POW3 MIN_2D_POW3 3 MAX_2D_POW3 MIN_2D_POW3 3 retval).andThen fun retval =>
  (pass MAX_2D_POW5 MIN_2D_POW5 5 MAX_2D_POW5 MIN_2D_POW5 5 retval).andThen fun retval =>
  (pass MAX_2D_POW2 MIN_2D_POW2 2 MAX_2D_POW3 MIN_2D_POW3 3 retval).andThen fun retval =>
  (pass MAX_2D_POW3 MIN_2D_POW3 3 MAX_2D_POW2 MIN_2D_POW2 2 retval).andThen fun retval =>
  (pass MAX_2D_POW3 MIN_2D_POW3 3 MAX_2D_POW5 MIN_2D_POW5 5 retval).andThen fun retval =>
  (pass MAX_2D_POW5 MIN_2D_POW5 5 MAX_2D_POW3 MIN_2D_POW3 3 retval).andThen fun retval =>
  (pass MAX_2D_POW2 MIN_2D_POW2 2 MAX_2D_POW5 MIN_2D_POW5 5 retval).andThen fun retval =>
  pass MAX_2D_POW5 MIN_2D_POW5 5 MAX_2D_POW2 MIN_2D_POW2 2 retval

/-- `Single2DSizes(ldsSizeBytes, precision, _GetWGSAndNT)` -/
def Single2DSizes (ldsSizeBytes : Nat) (precision : rocfft_precision)
    (_GetWGSAndNT : Provider) : Outcome (List (Nat × Nat)) :=
  enumerate2D (clampLds ldsSizeBytes) precision _GetWGSAndNT

/-! ## Precision helpers and the block-compute table -/

/-- `PrecisionWidth(precision)`: 1 for single precision, 2 for double precision.
The `default` case of the `switch` (`assert(false)`) is for values outside the
enumeration, which the type `rocfft_precision` does not have. -/
def PrecisionWidth (precision : rocfft_precision) : Nat :=
  match precision with
  | .rocfft_precision_single => 1
  | .rocfft_precision_double => 2

/-- `Large1DThreshold(precision)`: `4096 / PrecisionWidth(precision)`. -/
def Large1DThreshold (precision : rocfft_precision) : Nat :=
  4096 / PrecisionWidth precision

/-- The `switch(N)` of `GetBlockComputeTable`: the `(bwd, wgs)` assigned by the
`case` for `N`, or `none` in the `default` case. -/
def blockComputeCase (N : Nat) : Option (Nat × Nat) :=
  if N = 256 then some (8, 256)
  else if N = 128 then some (8, 128)
  else if N = 64 then some (16, 128)
  else if N = 32 then some (32, 64)
  else if N = 16 then some (64, 64)
  else if N = 8 then some (128, 64)
  else if N = 81 then some (9, 81)
  else if N = 50 then some (10, 50)
  else if N = 100 then some (5, 50)
  else if N = 200 then some (10, 100)
  else none

/-- `GetBlockComputeTable(N, bwd, wgs, lds)`: the returned triple is
`(bwd, wgs, lds)`, with `lds = N * bwd`; the `default` case ends in `assert(0)`. -/
def GetBlockComputeTable (N : Nat) : Outcome (Nat × Nat × Nat) :=
  match blockComputeCase N with
  | some (bwd, wgs) => .ret (bwd, wgs, wrap (N * bwd))
  | none => .abort .blockComputeLength

/-! ## Notions used to state the properties -/

/-- What the factorisation loops establish: `pf` holds, for each supported
prime, a power of that prime; `length` is `l` times the product of these
powers; and no supported prime divides the residue `l`. -/
def Factored (length l : Nat) (pf : PrimeMap) : Prop :=
  ∃ a2 a3 a5 a7 a11 a13 : Nat,
    pf 2 = 2 ^ a2 ∧ pf 3 = 3 ^ a3 ∧ pf 5 = 5 ^ a5 ∧ pf 7 = 7 ^ a7 ∧
    pf 11 = 11 ^ a11 ∧ pf 13 = 13 ^ a13 ∧
    length = l * (2 ^ a2 * 3 ^ a3 * 5 ^ a5 * 7 ^ a7 * 11 ^ a11 * 13 ^ a13) ∧
    ¬ 2 ∣ l ∧ ¬ 3 ∣ l ∧ ¬ 5 ∣ l ∧ ¬ 7 ∣ l ∧ ¬ 11 ∣ l ∧ ¬ 13 ∣ l

/-- The length is composed of supported primes only. -/
def Supported (length : Nat) : Prop :=
  ∀ p : Nat, p.Prime → p ∣ length → p ∈ baseRadix

/-- What the factorisation yields when the residue is `1`: the recorded prime
powers multiply to `length`, and the power recorded for a prime is `1` exactly
when that prime does not divide `length`. -/
structure Expanded (length : Nat) (pf : PrimeMap) : Prop where
  prod : length = pf 2 * pf 3 * pf 5 * pf 7 * pf 11 * pf 13
  pos : 0 < pf 2 ∧ 0 < pf 3 ∧ 0 < pf 5 ∧ 0 < pf 7 ∧ 0 < pf 11 ∧ 0 < pf 13
  one2 : pf 2 = 1 ↔ ¬ 2 ∣ length
  one3 : pf 3 = 1 ↔ ¬ 3 ∣ length
  one5 : pf 5 = 1 ↔ ¬ 5 ∣ length
  one7 : pf 7 = 1 ↔ ¬ 7 ∣ length
  one11 : pf 11 = 1 ↔ ¬ 11 ∣ length
  one13 : pf 13 = 1 ↔ ¬ 13 ∣ length

/-- The finalized `leastNumPerWI`: `m` is the smallest positive multiple of `L`
that divides `length` with `length / m` not above the maximum work-group size. -/
def IsFinalLnpi (length L m : Nat) : Prop :=
  0 < m ∧ L ∣ m ∧ m ∣ length ∧ length / m ≤ MAX_WORK_GROUP_SIZE ∧
    ∀ m1 : Nat, 0 < m1 → L ∣ m1 → m1 ∣ length → length / m1 ≤ MAX_WORK_GROUP_SIZE → m ≤ m1

/-- The supported lengths for which `DetermineSizes` has a rule whose
`leastNumPerWI` divides the length: those without the primes 11 and 13, those
with no prime besides 2 and 11, those with no prime besides 2 and 13, and the
multiples of `210 = 2 * 3 * 5 * 7`. -/
def Tuned (length : Nat) : Prop :=
  (¬ 11 ∣ length ∧ ¬ 13 ∣ length) ∨
  (¬ 3 ∣ length ∧ ¬ 5 ∣ length ∧ ¬ 7 ∣ length ∧ ¬ 13 ∣ length) ∨
  (¬ 3 ∣ length ∧ ¬ 5 ∣ length ∧ ¬ 7 ∣ length ∧ ¬ 11 ∣ length) ∨
  210 ∣ length

/-- The fixed work-group size of the pure power-of-`p` branch (`p` one of
3, 5, 7, 11, 13), as the specification lists them for the maximum work-group
size 1024. -/
def oddPrimeWorkGroupSize (p : Nat) : Nat :=
  if p = 3 then 243 else if p = 5 then 125 else if p = 7 then 49
  else if p = 11 then 121 else 169

/-- Running a loop body over the successive values of the loop variable. -/
def foldOutcome {α σ : Type} (body : α → σ → Outcome σ) : List α → σ → Outcome σ
  | [], s => .ret s
  | a :: rest, s => (body a s).andThen (foldOutcome body rest)

/-- The values of `i` in `for(i = MAX_2D_POW2; i >= MIN_2D_POW2; i /= 2)`. -/
def pow2Sizes : List Nat := [512, 256, 128, 64, 32, 16, 8, 4]

/-- The values of `i` in `for(i = MAX_2D_POW3; i >= MIN_2D_POW3; i /= 3)`. -/
def pow3Sizes : List Nat := [729, 243, 81, 27, 9]

/-- The values of `i` in `for(i = MAX_2D_POW5; i >= MIN_2D_POW5; i /= 5)`. -/
def pow5Sizes : List Nat := [625, 125, 25]

/-- The pairs `(i, j)` visited by the nine passes of `Single2DSizes`, in the
order of the visits. -/
def candidates : List (Nat × Nat) :=
  pow2Sizes.product pow2Sizes ++ pow3Sizes.product pow3Sizes ++ pow5Sizes.product pow5Sizes ++
  pow2Sizes.product pow3Sizes ++ pow3Sizes.product pow2Sizes ++
  pow3Sizes.product pow5Sizes ++ pow5Sizes.product pow3Sizes ++
  pow2Sizes.product pow5Sizes ++ pow5Sizes.product pow2Sizes

/-- The set `F` of the specification: the powers of 2 in `[4, 512]`, the powers
of 3 in `[9, 729]` and the powers of 5 in `[25, 625]`. -/
def InFusionFamily (d : Nat) : Prop :=
  (∃ k, d = 2 ^ k ∧ 4 ≤ d ∧ d ≤ 512) ∨ (∃ k, d = 3 ^ k ∧ 9 ≤ d ∧ d ≤ 729) ∨
    (∃ k, d = 5 ^ k ∧ 25 ≤ d ∧ d ≤ 625)

/-- The two tests of `Add2DSingleSize` on the pair `x`: the memory test, and
then the thread-count test on a thread count that was computed normally. -/
def accepts (realSizeBytes elementSizeBytes ldsSizeBytes : Nat) (_GetWGSAndNT : Provider)
    (x : Nat × Nat) : Bool :=
  decide (wrap (wrap (wrap (x.1 * x.2) * elementSizeBytes) +
      wrap (wrap (x.1 * x.2) * realSizeBytes)) ≤ ldsSizeBytes) &&
    match Get2DSingleThreadCount x.1 x.2 _GetWGSAndNT with
    | .ret numThreads => decide (numThreads < MAX_WORK_GROUP_SIZE)
    | _ => false

/-- All lengths that occur in a candidate pair. -/
def fusionSizes : List Nat := pow2Sizes ++ pow3Sizes ++ pow5Sizes

/-- A provider whose `numTransforms * length` exceeds the range of `size_t`. -/
def overflowProvider : Provider := fun _ => .ret (2, 2 ^ 62 + 1)

/-- The answer of `DetermineSizes` for a candidate length of the enumeration
(729 units of fuel are enough for each of them). -/
def fusionAnswer (d : Nat) : Nat × Nat :=
  match DetermineSizes 729 d with
  | .ret sizes => sizes
  | _ => (0, 0)

/-- The closed set of lengths of the block-compute table, as the specification
lists it. -/
def blockComputeLengths : List Nat := [8, 16, 32, 64, 128, 256, 50, 81, 100, 200]

/-- The entries `(N, bwd, wgs)` of the block-compute table. -/
def blockComputeEntries : List (Nat × Nat × Nat) :=
  [(256, 8, 256), (128, 8, 128), (64, 16, 128), (32, 32, 64), (16, 64, 64), (8, 128, 64),
    (81, 9, 81), (50, 10, 50), (100, 5, 50), (200, 10, 100)]

/-- Every work item gets a whole, non-zero number of elements: the work-group
size is positive, there is at least one transform per group, and the work-group
size divides `numTrans * length` with a quotient of at least 1. -/
def WholeItems (length workGroupSize numTrans : Nat) : Prop :=
  0 < workGroupSize ∧ 1 ≤ numTrans ∧ workGroupSize ∣ numTrans * length ∧
    1 ≤ numTrans * length / workGroupSize

/-- The call returned normally and its result satisfies `P`. -/
def Outcome.Returns {α : Type} (x : Outcome α) (P : α → Prop) : Prop :=
  match x with
  | .ret a => P a
  | _ => False

instance {α : Type} (x : Outcome α) (P : α → Prop) [DecidablePred P] :
    Decidable (x.Returns P) := by
  unfold Outcome.Returns
  cases x <;> infer_instance

/-! ## Basic facts -/

@[simp] theorem Outcome.andThen_ret {α β : Type} (a : α) (k : α → Outcome β) :
    (Outcome.ret a).andThen k = k a := rfl

@[simp] theorem Outcome.andThen_abort {α β : Type} (f : Fault) (k : α → Outcome β) :
    (Outcome.abort f : Outcome α).andThen k = .abort f := rfl

@[simp] theorem Outcome.andThen_timeout {α β : Type} (k : α → Outcome β) :
    (Outcome.timeout : Outcome α).andThen k = .timeout := rfl

theorem wrap_of_lt {n : Nat} (h : n < 2 ^ 64) : wrap n = n := by
  unfold wrap SIZE_T_RANGE
  exact Nat.mod_eq_of_lt h

theorem wrap_lt (n : Nat) : wrap n < 2 ^ 64 := by
  unfold wrap SIZE_T_RANGE
  exact Nat.mod_lt _ (by norm_num)

/-! ## The factorisation loops -/

/-- With enough fuel the inner loop returns, having moved a power of `rad` from
`l` to `e`. -/
theorem stripRadix_spec (rad : Nat) (hrad : 2 ≤ rad) :
    ∀ (fuel l e : Nat), 0 < l → l ≤ fuel → l * e < 2 ^ 64 →
      ∃ k l1, stripRadix fuel rad l e = .ret (l1, e * rad ^ k) ∧ l = l1 * rad ^ k ∧
        ¬ rad ∣ l1 := by
  intro fuel
  induction fuel with
  | zero => intro l e hl hf; omega
  | succ fuel ih =>
    intro l e hl hf hb
    have hrad0 : rad ≠ 0 := by omega
    by_cases hmod : l % rad = 0
    · have hdvd : rad ∣ l := Nat.dvd_of_mod_eq_zero hmod
      obtain ⟨q, rfl⟩ := hdvd
      have hq : 0 < q := Nat.pos_of_mul_pos_left hl
      have hdiv : rad * q / rad = q := Nat.mul_div_cancel_left q (by omega)
      have hqlt : q < rad * q := by nlinarith
      have hle : e * rad ≤ rad * q * e := by
        have : rad * q * e = e * rad * q := by ring
        rw [this]
        exact Nat.le_mul_of_pos_right _ hq
      have hw : wrap (e * rad) = e * rad := wrap_of_lt (by omega)
      obtain ⟨k, l1, hk, hl1, hnd⟩ := ih q (e * rad) hq (by omega)
        (by have : q * (e * rad) = rad * q * e := by ring
            omega)
      refine ⟨k + 1, l1, ?_, ?_, hnd⟩
      · simp only [stripRadix, hrad0, hmod, if_true, if_false, hdiv, hw, hk]
        congr 2
        ring
      · rw [hl1]; ring
    · refine ⟨0, l, ?_, by simp, ?_⟩
      · simp [stripRadix, hrad0, hmod]
      · intro h; exact hmod (Nat.mod_eq_zero_of_dvd h)

/-- More fuel does not change the result of a loop that finished. -/
theorem stripRadix_mono (rad n : Nat) :
    ∀ (fuel l e : Nat), stripRadix fuel rad l e ≠ .timeout →
      stripRadix (fuel + n) rad l e = stripRadix fuel rad l e := by
  intro fuel
  induction fuel with
  | zero => intro l e h; simp [stripRadix] at h
  | succ fuel ih =>
    intro l e h
    rw [show fuel + 1 + n = (fuel + n) + 1 by omega]
    unfold stripRadix at h ⊢
    by_cases hrad : rad = 0
    · simp [hrad]
    · by_cases hmod : l % rad = 0
      · simp only [hrad, hmod, if_true, if_false] at h ⊢
        exact ih _ _ h
      · simp [hrad, hmod]

/-- One round of the outer loop, in the form used below. -/
theorem stripRadix_round (rad : Nat) (hrad : 2 ≤ rad) (fuel l : Nat) (hl : 0 < l)
    (hf : l ≤ fuel) (hb : l < 2 ^ 64) :
    ∃ k l1, stripRadix fuel rad l 1 = .ret (l1, rad ^ k) ∧ l = l1 * rad ^ k ∧ ¬ rad ∣ l1 ∧
      0 < l1 ∧ l1 ≤ l := by
  obtain ⟨k, l1, h, hl1, hnd⟩ := stripRadix_spec rad hrad fuel l 1 hl hf (by omega)
  have hpow : 0 < rad ^ k := pow_pos (by omega) k
  have h1 : 0 < l1 := by
    rcases Nat.eq_zero_or_pos l1 with h0 | h0
    · subst h0; simp at hl1; omega
    · exact h0
  refine ⟨k, l1, by simpa using h, hl1, hnd, h1, ?_⟩
  rw [hl1]
  exact Nat.le_mul_of_pos_right _ hpow

theorem not_dvd_of_mul_eq {p a b c : Nat} (h : a = b * c) (hp : ¬ p ∣ a) : ¬ p ∣ b := by
  intro hb
  exact hp (h ▸ Dvd.dvd.mul_right hb c)

/-- With enough fuel the factorisation loops return, and what they return is a
factorisation of `length` over the supported primes with a residue. -/
theorem factorLoop_spec (fuel length : Nat) (h0 : 0 < length) (hf : length ≤ fuel)
    (hb : length < 2 ^ 64) :
    ∃ l pf, factorLoop fuel baseRadix length PrimeMap.empty = .ret (l, pf) ∧
      Factored length l pf := by
  obtain ⟨a13, l13, e13, h13, n13, p13, le13⟩ :=
    stripRadix_round 13 (by norm_num) fuel length h0 hf hb
  obtain ⟨a11, l11, e11, h11, n11, p11, le11⟩ :=
    stripRadix_round 11 (by norm_num) fuel l13 p13 (by omega) (by omega)
  obtain ⟨a7, l7, e7, h7, n7, p7, le7⟩ :=
    stripRadix_round 7 (by norm_num) fuel l11 p11 (by omega) (by omega)
  obtain ⟨a5, l5, e5, h5, n5, p5, le5⟩ :=
    stripRadix_round 5 (by norm_num) fuel l7 p7 (by omega) (by omega)
  obtain ⟨a3, l3, e3, h3, n3, p3, le3⟩ :=
    stripRadix_round 3 (by norm_num) fuel l5 p5 (by omega) (by omega)
  obtain ⟨a2, l2, e2, h2, n2, p2, le2⟩ :=
    stripRadix_round 2 (by norm_num) fuel l3 p3 (by omega) (by omega)
  refine ⟨l2, (((((PrimeMap.empty.set 13 (13 ^ a13)).set 11 (11 ^ a11)).set 7 (7 ^ a7)).set 5
    (5 ^ a5)).set 3 (3 ^ a3)).set 2 (2 ^ a2), ?_, a2, a3, a5, a7, a11, a13, ?_⟩
  · simp only [baseRadix, factorLoop, e13, e11, e7, e5, e3, e2]
  · have n3' : ¬ 3 ∣ l2 := not_dvd_of_mul_eq h2 n3
    have n5a : ¬ 5 ∣ l3 := not_dvd_of_mul_eq h3 n5
    have n5' : ¬ 5 ∣ l2 := not_dvd_of_mul_eq h2 n5a
    have n7a : ¬ 7 ∣ l5 := not_dvd_of_mul_eq h5 n7
    have n7b : ¬ 7 ∣ l3 := not_dvd_of_mul_eq h3 n7a
    have n7' : ¬ 7 ∣ l2 := not_dvd_of_mul_eq h2 n7b
    have n11a : ¬ 11 ∣ l7 := not_dvd_of_mul_eq h7 n11
    have n11b : ¬ 11 ∣ l5 := not_dvd_of_mul_eq h5 n11a
    have n11c : ¬ 11 ∣ l3 := not_dvd_of_mul_eq h3 n11b
    have n11' : ¬ 11 ∣ l2 := not_dvd_of_mul_eq h2 n11c
    have n13a : ¬ 13 ∣ l11 := not_dvd_of_mul_eq h11 n13
    have n13b : ¬ 13 ∣ l7 := not_dvd_of_mul_eq h7 n13a
    have n13c : ¬ 13 ∣ l5 := not_dvd_of_mul_eq h5 n13b
    have n13d : ¬ 13 ∣ l3 := not_dvd_of_mul_eq h3 n13c
    have n13' : ¬ 13 ∣ l2 := not_dvd_of_mul_eq h2 n13d
    refine ⟨by simp [PrimeMap.set], by simp [PrimeMap.set], by simp [PrimeMap.set],
      by simp [PrimeMap.set], by simp [PrimeMap.set], by simp [PrimeMap.set], ?_,
      n2, n3', n5', n7', n11', n13'⟩
    rw [h13, h11, h7, h5, h3, h2]
    ring

/-- More fuel does not change the result of the factorisation loops. -/
theorem factorLoop_mono (fuel n : Nat) :
    ∀ (rs : List Nat) (l : Nat) (pf : PrimeMap), factorLoop fuel rs l pf ≠ .timeout →
      factorLoop (fuel + n) rs l pf = factorLoop fuel rs l pf := by
  intro rs
  induction rs with
  | nil => intro l pf _; simp [factorLoop]
  | cons rad rest ih =>
    intro l pf h
    unfold factorLoop at h ⊢
    have hs : stripRadix fuel rad l 1 ≠ .timeout := by
      intro hc; rw [hc] at h; simp at h
    rw [stripRadix_mono rad n fuel l 1 hs]
    cases hr : stripRadix fuel rad l 1 with
    | ret a =>
      rw [hr] at h
      obtain ⟨l1, e⟩ := a
      exact ih _ _ h
    | abort f => rfl
    | timeout => exact absurd hr hs

/-! ## Consequences of the factorisation -/

theorem prime_seven : Nat.Prime 7 := by norm_num
theorem prime_eleven : Nat.Prime 11 := by norm_num
theorem prime_thirteen : Nat.Prime 13 := by norm_num

theorem not_dvd_pow_of_not_dvd {p q : Nat} (hp : p.Prime) (h : ¬ p ∣ q) (a : Nat) :
    ¬ p ∣ q ^ a := fun hd => h (hp.dvd_of_dvd_pow hd)

theorem not_dvd_mul_of_not_dvd {p m n : Nat} (hp : p.Prime) (hm : ¬ p ∣ m) (hn : ¬ p ∣ n) :
    ¬ p ∣ m * n := fun hd => (hp.dvd_mul.1 hd).elim hm hn

/-- A prime power `p ^ a` is `1` exactly when `p` does not divide `p ^ a * c`,
for `c` prime to `p`. -/
theorem pow_eq_one_iff_not_dvd {p a c n : Nat} (hp : p.Prime) (hn : n = p ^ a * c)
    (hc : ¬ p ∣ c) : p ^ a = 1 ↔ ¬ p ∣ n := by
  subst hn
  rcases Nat.eq_zero_or_pos a with h | h
  · subst h
    simpa using hc
  · have hd : p ∣ p ^ a * c := Dvd.dvd.mul_right (dvd_pow_self p (by omega)) c
    have h1 : p ^ a ≠ 1 := by
      have : 1 < p ^ a := Nat.one_lt_pow (by omega) hp.one_lt
      omega
    simp [hd, h1]

/-- A product of powers of the supported primes is a supported length. -/
theorem supported_smooth (a2 a3 a5 a7 a11 a13 : Nat) :
    Supported (2 ^ a2 * 3 ^ a3 * 5 ^ a5 * 7 ^ a7 * 11 ^ a11 * 13 ^ a13) := by
  intro p hp hd
  have key : ∀ q a : Nat, q.Prime → p ∣ q ^ a → p = q := fun q a hq hqa =>
    (Nat.prime_dvd_prime_iff_eq hp hq).1 (hp.dvd_of_dvd_pow hqa)
  rcases hp.dvd_mul.1 hd with hd | hd
  · rcases hp.dvd_mul.1 hd with hd | hd
    · rcases hp.dvd_mul.1 hd with hd | hd
      · rcases hp.dvd_mul.1 hd with hd | hd
        · rcases hp.dvd_mul.1 hd with hd | hd
          · simp [baseRadix, key 2 a2 Nat.prime_two hd]
          · simp [baseRadix, key 3 a3 Nat.prime_three hd]
        · simp [baseRadix, key 5 a5 Nat.prime_five hd]
      · simp [baseRadix, key 7 a7 prime_seven hd]
    · simp [baseRadix, key 11 a11 prime_eleven hd]
  · simp [baseRadix, key 13 a13 prime_thirteen hd]

/-- The residue of the factorisation is `1` exactly for supported lengths. -/
theorem Factored.residue_eq_one_iff {length l : Nat} {pf : PrimeMap}
    (h : Factored length l pf) : l = 1 ↔ Supported length := by
  obtain ⟨a2, a3, a5, a7, a11, a13, -, -, -, -, -, -, hprod, n2, n3, n5, n7, n11, n13⟩ := h
  constructor
  · intro hl
    subst hl
    rw [hprod, one_mul]
    exact supported_smooth a2 a3 a5 a7 a11 a13
  · intro hs
    by_contra hl
    obtain ⟨q, hq, hql⟩ := Nat.exists_prime_and_dvd hl
    have hqn : q ∣ length := hprod ▸ Dvd.dvd.mul_right hql _
    have hmem := hs q hq hqn
    simp only [baseRadix, List.mem_cons, List.mem_singleton, List.not_mem_nil, or_false] at hmem
    rcases hmem with rfl | rfl | rfl | rfl | rfl | rfl
    · exact n13 hql
    · exact n11 hql
    · exact n7 hql
    · exact n5 hql
    · exact n3 hql
    · exact n2 hql

/-- With residue `1` the recorded prime powers determine which supported primes
divide the length. -/
theorem Factored.expanded {length : Nat} {pf : PrimeMap} (h : Factored length 1 pf) :
    Expanded length pf := by
  obtain ⟨a2, a3, a5, a7, a11, a13, e2, e3, e5, e7, e11, e13, hprod, -⟩ := h
  rw [one_mul] at hprod
  have P2 := Nat.prime_two
  have P3 := Nat.prime_three
  have P5 := Nat.prime_five
  have P7 := prime_seven
  have P11 := prime_eleven
  have P13 := prime_thirteen
  have nd : ∀ {p q : Nat}, p.Prime → ¬ p ∣ q → ∀ a, ¬ p ∣ q ^ a :=
    fun hp h a => not_dvd_pow_of_not_dvd hp h a
  have nm : ∀ {p m n : Nat}, p.Prime → ¬ p ∣ m → ¬ p ∣ n → ¬ p ∣ m * n :=
    fun hp hm hn => not_dvd_mul_of_not_dvd hp hm hn
  refine ⟨by rw [e2, e3, e5, e7, e11, e13]; exact hprod, ?_, ?_, ?_, ?_, ?_, ?_, ?_⟩
  · rw [e2, e3, e5, e7, e11, e13]
    exact ⟨by positivity, by positivity, by positivity, by positivity, by positivity,
      by positivity⟩
  · rw [e2]
    refine pow_eq_one_iff_not_dvd (c := 3 ^ a3 * 5 ^ a5 * 7 ^ a7 * 11 ^ a11 * 13 ^ a13) P2
      (by rw [hprod]; ring) ?_
    exact nm P2 (nm P2 (nm P2 (nm P2 (nd P2 (by decide) _) (nd P2 (by decide) _))
      (nd P2 (by decide) _)) (nd P2 (by decide) _)) (nd P2 (by decide) _)
  · rw [e3]
    refine pow_eq_one_iff_not_dvd (c := 2 ^ a2 * 5 ^ a5 * 7 ^ a7 * 11 ^ a11 * 13 ^ a13) P3
      (by rw [hprod]; ring) ?_
    exact nm P3 (nm P3 (nm P3 (nm P3 (nd P3 (by decide) _) (nd P3 (by decide) _))
      (nd P3 (by decide) _)) (nd P3 (by decide) _)) (nd P3 (by decide) _)
  · rw [e5]
    refine pow_eq_one_iff_not_dvd (c := 2 ^ a2 * 3 ^ a3 * 7 ^ a7 * 11 ^ a11 * 13 ^ a13) P5
      (by rw [hprod]; ring) ?_
    exact nm P5 (nm P5 (nm P5 (nm P5 (nd P5 (by decide) _) (nd P5 (by decide) _))
      (nd P5 (by decide) _)) (nd P5 (by decide) _)) (nd P5 (by decide) _)
  · rw [e7]
    refine pow_eq_one_iff_not_dvd (c := 2 ^ a2 * 3 ^ a3 * 5 ^ a5 * 11 ^ a11 * 13 ^ a13) P7
      (by rw [hprod]; ring) ?_
    exact nm P7 (nm P7 (nm P7 (nm P7 (nd P7 (by decide) _) (nd P7 (by decide) _))
      (nd P7 (by decide) _)) (nd P7 (by decide) _)) (nd P7 (by decide) _)
  · rw [e11]
    refine pow_eq_one_iff_not_dvd (c := 2 ^ a2 * 3 ^ a3 * 5 ^ a5 * 7 ^ a7 * 13 ^ a13) P11
      (by rw [hprod]; ring) ?_
    exact nm P11 (nm P11 (nm P11 (nm P11 (nd P11 (by decide) _) (nd P11 (by decide) _))
      (nd P11 (by decide) _)) (nd P11 (by decide) _)) (nd P11 (by decide) _)
  · rw [e13]
    refine pow_eq_one_iff_not_dvd (c := 2 ^ a2 * 3 ^ a3 * 5 ^ a5 * 7 ^ a7 * 11 ^ a11) P13
      (by rw [hprod]; ring) ?_
    exact nm P13 (nm P13 (nm P13 (nm P13 (nd P13 (by decide) _) (nd P13 (by decide) _))
      (nd P13 (by decide) _)) (nd P13 (by decide) _)) (nd P13 (by decide) _)

/-- A partial product of the recorded prime powers does not wrap, and equals
the length exactly when the remaining factors are all `1`. -/
theorem partial_product {S C n : Nat} (h : n = S * C) (hC : 0 < C) (hb : n < 2 ^ 64)
    (hS : 0 < S) : wrap S = S ∧ (S = n ↔ C = 1) := by
  have hle : S ≤ n := h ▸ Nat.le_mul_of_pos_right S hC
  refine ⟨wrap_of_lt (by omega), ?_⟩
  subst h
  constructor
  · intro he
    have : S * 1 = S * C := by rw [mul_one]; exact he
    exact (Nat.eq_of_mul_eq_mul_left hS this).symm
  · intro hc; rw [hc, mul_one]

theorem Expanded.pure_2 {length : Nat} {pf : PrimeMap} (E : Expanded length pf)
    (hb : length < 2 ^ 64) : pf 2 = length ↔ ¬ 3 ∣ length ∧ ¬ 5 ∣ length ∧ ¬ 7 ∣ length ∧ ¬ 11 ∣ length ∧ ¬ 13 ∣ length := by
  obtain ⟨h2, h3, h5, h7, h11, h13⟩ := E.pos
  obtain ⟨-, hi⟩ := partial_product (S := pf 2) (C := pf 3 * pf 5 * pf 7 * pf 11 * pf 13)
    (E.prod.trans (by ring)) (by positivity) hb (by positivity)
  rw [hi]
  simp [and_assoc, E.one2, E.one3, E.one5, E.one7, E.one11, E.one13]

theorem Expanded.pure_3 {length : Nat} {pf : PrimeMap} (E : Expanded length pf)
    (hb : length < 2 ^ 64) : pf 3 = length ↔ ¬ 2 ∣ length ∧ ¬ 5 ∣ length ∧ ¬ 7 ∣ length ∧ ¬ 11 ∣ length ∧ ¬ 13 ∣ length := by
  obtain ⟨h2, h3, h5, h7, h11, h13⟩ := E.pos
  obtain ⟨-, hi⟩ := partial_product (S := pf 3) (C := pf 2 * pf 5 * pf 7 * pf 11 * pf 13)
    (E.prod.trans (by ring)) (by positivity) hb (by positivity)
  rw [hi]
  simp [and_assoc, E.one2, E.one3, E.one5, E.one7, E.one11, E.one13]

theorem Expanded.pure_5 {length : Nat} {pf : PrimeMap} (E : Expanded length pf)
    (hb : length < 2 ^ 64) : pf 5 = length ↔ ¬ 2 ∣ length ∧ ¬ 3 ∣ length ∧ ¬ 7 ∣ length ∧ ¬ 11 ∣ length ∧ ¬ 13 ∣ length := by
  obtain ⟨h2, h3, h5, h7, h11, h13⟩ := E.pos
  obtain ⟨-, hi⟩ := partial_product (S := pf 5) (C := pf 2 * pf 3 * pf 7 * pf 11 * pf 13)
    (E.prod.trans (by ring)) (by positivity) hb (by positivity)
  rw [hi]
  simp [and_assoc, E.one2, E.one3, E.one5, E.one7, E.one11, E.one13]

theorem Expanded.pure_7 {length : Nat} {pf : PrimeMap} (E : Expanded length pf)
    (hb : length < 2 ^ 64) : pf 7 = length ↔ ¬ 2 ∣ length ∧ ¬ 3 ∣ length ∧ ¬ 5 ∣ length ∧ ¬ 11 ∣ length ∧ ¬ 13 ∣ length := by
  obtain ⟨h2, h3, h5, h7, h11, h13⟩ := E.pos
  obtain ⟨-, hi⟩ := partial_product (S := pf 7) (C := pf 2 * pf 3 * pf 5 * pf 11 * pf 13)
    (E.prod.trans (by ring)) (by positivity) hb (by positivity)
  rw [hi]
  simp [and_assoc, E.one2, E.one3, E.one5, E.one7, E.one11, E.one13]

theorem Expanded.pure_11 {length : Nat} {pf : PrimeMap} (E : Expanded length pf)
    (hb : length < 2 ^ 64) : pf 11 = length ↔ ¬ 2 ∣ length ∧ ¬ 3 ∣ length ∧ ¬ 5 ∣ length ∧ ¬ 7 ∣ length ∧ ¬ 13 ∣ length := by
  obtain ⟨h2, h3, h5, h7, h11, h13⟩ := E.pos
  obtain ⟨-, hi⟩ := partial_product (S := pf 11) (C := pf 2 * pf 3 * pf 5 * pf 7 * pf 13)
    (E.prod.trans (by ring)) (by positivity) hb (by positivity)
  rw [hi]
  simp [and_assoc, E.one2, E.one3, E.one5, E.one7, E.one11, E.one13]

theorem Expanded.pure_13 {length : Nat} {pf : PrimeMap} (E : Expanded length pf)
    (hb : length < 2 ^ 64) : pf 13 = length ↔ ¬ 2 ∣ length ∧ ¬ 3 ∣ length ∧ ¬ 5 ∣ length ∧ ¬ 7 ∣ length ∧ ¬ 11 ∣ length := by
  obtain ⟨h2, h3, h5, h7, h11, h13⟩ := E.pos
  obtain ⟨-, hi⟩ := partial_product (S := pf 13) (C := pf 2 * pf 3 * pf 5 * pf 7 * pf 11)
    (E.prod.trans (by ring)) (by positivity) hb (by positivity)
  rw [hi]
  simp [and_assoc, E.one2, E.one3, E.one5, E.one7, E.one11, E.one13]

theorem Expanded.pair_2_3 {length : Nat} {pf : PrimeMap} (E : Expanded length pf)
    (hb : length < 2 ^ 64) :
    wrap (pf 2 * pf 3) = length ↔ ¬ 5 ∣ length ∧ ¬ 7 ∣ length ∧ ¬ 11 ∣ length ∧ ¬ 13 ∣ length := by
  obtain ⟨h2, h3, h5, h7, h11, h13⟩ := E.pos
  obtain ⟨hw, hi⟩ := partial_product (S := pf 2 * pf 3) (C := pf 5 * pf 7 * pf 11 * pf 13)
    (E.prod.trans (by ring)) (by positivity) hb (by positivity)
  rw [hw, hi]
  simp [and_assoc, E.one2, E.one3, E.one5, E.one7, E.one11, E.one13]

theorem Expanded.pair_2_5 {length : Nat} {pf : PrimeMap} (E : Expanded length pf)
    (hb : length < 2 ^ 64) :
    wrap (pf 2 * pf 5) = length ↔ ¬ 3 ∣ length ∧ ¬ 7 ∣ length ∧ ¬ 11 ∣ length ∧ ¬ 13 ∣ length := by
  obtain ⟨h2, h3, h5, h7, h11, h13⟩ := E.pos
  obtain ⟨hw, hi⟩ := partial_product (S := pf 2 * pf 5) (C := pf 3 * pf 7 * pf 11 * pf 13)
    (E.prod.trans (by ring)) (by positivity) hb (by positivity)
  rw [hw, hi]
  simp [and_assoc, E.one2, E.one3, E.one5, E.one7, E.one11, E.one13]

theorem Expanded.pair_2_7 {length : Nat} {pf : PrimeMap} (E : Expanded length pf)
    (hb : length < 2 ^ 64) :
    wrap (pf 2 * pf 7) = length ↔ ¬ 3 ∣ length ∧ ¬ 5 ∣ length ∧ ¬ 11 ∣ length ∧ ¬ 13 ∣ length := by
  obtain ⟨h2, h3, h5, h7, h11, h13⟩ := E.pos
  obtain ⟨hw, hi⟩ := partial_product (S := pf 2 * pf 7) (C := pf 3 * pf 5 * pf 11 * pf 13)
    (E.prod.trans (by ring)) (by positivity) hb (by positivity)
  rw [hw, hi]
  simp [and_assoc, E.one2, E.one3, E.one5, E.one7, E.one11, E.one13]

theorem Expanded.pair_3_5 {length : Nat} {pf : PrimeMap} (E : Expanded length pf)
    (hb : length < 2 ^ 64) :
    wrap (pf 3 * pf 5) = length ↔ ¬ 2 ∣ length ∧ ¬ 7 ∣ length ∧ ¬ 11 ∣ length ∧ ¬ 13 ∣ length := by
  obtain ⟨h2, h3, h5, h7, h11, h13⟩ := E.pos
  obtain ⟨hw, hi⟩ := partial_product (S := pf 3 * pf 5) (C := pf 2 * pf 7 * pf 11 * pf 13)
    (E.prod.trans (by ring)) (by positivity) hb (by positivity)
  rw [hw, hi]
  simp [and_assoc, E.one2, E.one3, E.one5, E.one7, E.one11, E.one13]

theorem Expanded.pair_3_7 {length : Nat} {pf : PrimeMap} (E : Expanded length pf)
    (hb : length < 2 ^ 64) :
    wrap (pf 3 * pf 7) = length ↔ ¬ 2 ∣ length ∧ ¬ 5 ∣ length ∧ ¬ 11 ∣ length ∧ ¬ 13 ∣ length := by
  obtain ⟨h2, h3, h5, h7, h11, h13⟩ := E.pos
  obtain ⟨hw, hi⟩ := partial_product (S := pf 3 * pf 7) (C := pf 2 * pf 5 * pf 11 * pf 13)
    (E.prod.trans (by ring)) (by positivity) hb (by positivity)
  rw [hw, hi]
  simp [and_assoc, E.one2, E.one3, E.one5, E.one7, E.one11, E.one13]

theorem Expanded.pair_5_7 {length : Nat} {pf : PrimeMap} (E : Expanded length pf)
    (hb : length < 2 ^ 64) :
    wrap (pf 5 * pf 7) = length ↔ ¬ 2 ∣ length ∧ ¬ 3 ∣ length ∧ ¬ 11 ∣ length ∧ ¬ 13 ∣ length := by
  obtain ⟨h2, h3, h5, h7, h11, h13⟩ := E.pos
  obtain ⟨hw, hi⟩ := partial_product (S := pf 5 * pf 7) (C := pf 2 * pf 3 * pf 11 * pf 13)
    (E.prod.trans (by ring)) (by positivity) hb (by positivity)
  rw [hw, hi]
  simp [and_assoc, E.one2, E.one3, E.one5, E.one7, E.one11, E.one13]

theorem Expanded.pair_2_11 {length : Nat} {pf : PrimeMap} (E : Expanded length pf)
    (hb : length < 2 ^ 64) :
    wrap (pf 2 * pf 11) = length ↔ ¬ 3 ∣ length ∧ ¬ 5 ∣ length ∧ ¬ 7 ∣ length ∧ ¬ 13 ∣ length := by
  obtain ⟨h2, h3, h5, h7, h11, h13⟩ := E.pos
  obtain ⟨hw, hi⟩ := partial_product (S := pf 2 * pf 11) (C := pf 3 * pf 5 * pf 7 * pf 13)
    (E.prod.trans (by ring)) (by positivity) hb (by positivity)
  rw [hw, hi]
  simp [and_assoc, E.one2, E.one3, E.one5, E.one7, E.one11, E.one13]

theorem Expanded.pair_2_13 {length : Nat} {pf : PrimeMap} (E : Expanded length pf)
    (hb : length < 2 ^ 64) :
    wrap (pf 2 * pf 13) = length ↔ ¬ 3 ∣ length ∧ ¬ 5 ∣ length ∧ ¬ 7 ∣ length ∧ ¬ 11 ∣ length := by
  obtain ⟨h2, h3, h5, h7, h11, h13⟩ := E.pos
  obtain ⟨hw, hi⟩ := partial_product (S := pf 2 * pf 13) (C := pf 3 * pf 5 * pf 7 * pf 11)
    (E.prod.trans (by ring)) (by positivity) hb (by positivity)
  rw [hw, hi]
  simp [and_assoc, E.one2, E.one3, E.one5, E.one7, E.one11, E.one13]

theorem Expanded.triple_2_3_5 {length : Nat} {pf : PrimeMap} (E : Expanded length pf)
    (hb : length < 2 ^ 64) :
    wrap (wrap (pf 2 * pf 3) * pf 5) = length ↔ ¬ 7 ∣ length ∧ ¬ 11 ∣ length ∧ ¬ 13 ∣ length := by
  obtain ⟨h2, h3, h5, h7, h11, h13⟩ := E.pos
  obtain ⟨hw0, -⟩ := partial_product (S := pf 2 * pf 3) (C := pf 5 * pf 7 * pf 11 * pf 13)
    (E.prod.trans (by ring)) (by positivity) hb (by positivity)
  obtain ⟨hw, hi⟩ := partial_product (S := pf 2 * pf 3 * pf 5) (C := pf 7 * pf 11 * pf 13)
    (E.prod.trans (by ring)) (by positivity) hb (by positivity)
  rw [hw0, hw, hi]
  simp [and_assoc, E.one2, E.one3, E.one5, E.one7, E.one11, E.one13]

theorem Expanded.triple_2_3_7 {length : Nat} {pf : PrimeMap} (E : Expanded length pf)
    (hb : length < 2 ^ 64) :
    wrap (wrap (pf 2 * pf 3) * pf 7) = length ↔ ¬ 5 ∣ length ∧ ¬ 11 ∣ length ∧ ¬ 13 ∣ length := by
  obtain ⟨h2, h3, h5, h7, h11, h13⟩ := E.pos
  obtain ⟨hw0, -⟩ := partial_product (S := pf 2 * pf 3) (C := pf 5 * pf 7 * pf 11 * pf 13)
    (E.prod.trans (by ring)) (by positivity) hb (by positivity)
  obtain ⟨hw, hi⟩ := partial_product (S := pf 2 * pf 3 * pf 7) (C := pf 5 * pf 11 * pf 13)
    (E.prod.trans (by ring)) (by positivity) hb (by positivity)
  rw [hw0, hw, hi]
  simp [and_assoc, E.one2, E.one3, E.one5, E.one7, E.one11, E.one13]

theorem Expanded.triple_2_5_7 {length : Nat} {pf : PrimeMap} (E : Expanded length pf)
    (hb : length < 2 ^ 64) :
    wrap (wrap (pf 2 * pf 5) * pf 7) = length ↔ ¬ 3 ∣ length ∧ ¬ 11 ∣ length ∧ ¬ 13 ∣ length := by
  obtain ⟨h2, h3, h5, h7, h11, h13⟩ := E.pos
  obtain ⟨hw0, -⟩ := partial_product (S := pf 2 * pf 5) (C := pf 3 * pf 7 * pf 11 * pf 13)
    (E.prod.trans (by ring)) (by positivity) hb (by positivity)
  obtain ⟨hw, hi⟩ := partial_product (S := pf 2 * pf 5 * pf 7) (C := pf 3 * pf 11 * pf 13)
    (E.prod.trans (by ring)) (by positivity) hb (by positivity)
  rw [hw0, hw, hi]
  simp [and_assoc, E.one2, E.one3, E.one5, E.one7, E.one11, E.one13]

theorem Expanded.triple_3_5_7 {length : Nat} {pf : PrimeMap} (E : Expanded length pf)
    (hb : length < 2 ^ 64) :
    wrap (wrap (pf 3 * pf 5) * pf 7) = length ↔ ¬ 2 ∣ length ∧ ¬ 11 ∣ length ∧ ¬ 13 ∣ length := by
  obtain ⟨h2, h3, h5, h7, h11, h13⟩ := E.pos
  obtain ⟨hw0, -⟩ := partial_product (S := pf 3 * pf 5) (C := pf 2 * pf 7 * pf 11 * pf 13)
    (E.prod.trans (by ring)) (by positivity) hb (by positivity)
  obtain ⟨hw, hi⟩ := partial_product (S := pf 3 * pf 5 * pf 7) (C := pf 2 * pf 11 * pf 13)
    (E.prod.trans (by ring)) (by positivity) hb (by positivity)
  rw [hw0, hw, hi]
  simp [and_assoc, E.one2, E.one3, E.one5, E.one7, E.one11, E.one13]

/-! ## The search for the finalized `leastNumPerWI` -/

theorem multiple_add_le {s a b : Nat} (ha : s ∣ a) (hb : s ∣ b) (h : a < b) : a + s ≤ b := by
  obtain ⟨x, rfl⟩ := ha
  obtain ⟨y, rfl⟩ := hb
  have hs : 0 < s := by
    rcases Nat.eq_zero_or_pos s with h0 | h0
    · subst h0; simp at h
    · exact h0
  have hxy : x < y := Nat.lt_of_mul_lt_mul_left h
  calc s * x + s = s * (x + 1) := by ring
    _ ≤ s * y := Nat.mul_le_mul_left s hxy

/-- With enough fuel the search loop leaves through its `break`, at the smallest
suitable multiple of `step`; `lnpi` never wraps on the way. -/
theorem searchLnpi_spec (length step : Nat) (hb : length < 2 ^ 64) (hs : 0 < step)
    (hd : step ∣ length) :
    ∀ (fuel lnpi : Nat), 0 < lnpi → step ∣ lnpi → lnpi ≤ length → length < lnpi + fuel →
      (∀ m1 : Nat, 0 < m1 → step ∣ m1 → m1 < lnpi →
        ¬ (m1 ∣ length ∧ length / m1 ≤ MAX_WORK_GROUP_SIZE)) →
      ∃ m, searchLnpi fuel length step lnpi = .ret m ∧ IsFinalLnpi length step m := by
  intro fuel
  induction fuel with
  | zero => intro lnpi _ _ hle hf; omega
  | succ fuel ih =>
    intro lnpi hpos hmul hle hf hmin
    have hne : lnpi ≠ 0 := by omega
    have step_ok : lnpi ≠ length → ¬ (lnpi ∣ length ∧ length / lnpi ≤ MAX_WORK_GROUP_SIZE) →
        ∃ m, searchLnpi fuel length step (wrap (lnpi + step)) = .ret m ∧
          IsFinalLnpi length step m := by
      intro hlt hnot
      have hadd : lnpi + step ≤ length := multiple_add_le hmul hd (by omega)
      rw [wrap_of_lt (by omega)]
      refine ih (lnpi + step) (by omega) (Dvd.dvd.add hmul (dvd_refl step)) hadd (by omega) ?_
      intro m1 hm1 hdm1 hlt1
      by_cases hc : m1 < lnpi
      · exact hmin m1 hm1 hdm1 hc
      · have : m1 ≤ lnpi := by
          by_contra hgt
          have := multiple_add_le hmul hdm1 (by omega)
          omega
        have : m1 = lnpi := by omega
        subst this
        exact hnot
    unfold searchLnpi
    simp only [hle, if_true, hne, if_false]
    by_cases hmod : length % lnpi = 0
    · have hdvd : lnpi ∣ length := Nat.dvd_of_mod_eq_zero hmod
      by_cases hq : length / lnpi ≤ MAX_WORK_GROUP_SIZE
      · refine ⟨lnpi, by simp [hmod, hq], hpos, hmul, hdvd, hq, ?_⟩
        intro m1 hm1 hdm1 hdl hq1
        by_contra hlt
        exact hmin m1 hm1 hdm1 (by omega) ⟨hdl, hq1⟩
      · have hneq : lnpi ≠ length := by
          intro he
          apply hq
          rw [he, Nat.div_self (by omega)]
          decide
        simpa [hmod, hq] using step_ok hneq (fun h => hq h.2)
    · have hneq : lnpi ≠ length := by
        intro he
        apply hmod
        rw [he, Nat.mod_self]
      simpa [hmod] using step_ok hneq (fun h => hmod (Nat.mod_eq_zero_of_dvd h.1))

/-- More fuel does not change the result of a search that finished. -/
theorem searchLnpi_mono (length step n : Nat) :
    ∀ (fuel lnpi : Nat), searchLnpi fuel length step lnpi ≠ .timeout →
      searchLnpi (fuel + n) length step lnpi = searchLnpi fuel length step lnpi := by
  intro fuel
  induction fuel with
  | zero => intro lnpi h; simp [searchLnpi] at h
  | succ fuel ih =>
    intro lnpi h
    rw [show fuel + 1 + n = (fuel + n) + 1 by omega]
    unfold searchLnpi at h ⊢
    by_cases hle : lnpi ≤ length
    · by_cases hne : lnpi = 0
      · simp [hle, hne]
      · by_cases hmod : length % lnpi = 0
        · by_cases hq : length / lnpi ≤ MAX_WORK_GROUP_SIZE
          · simp [hle, hne, hmod, hq]
          · simp only [hle, hne, hmod, hq, if_true, if_false, ne_eq, not_true_eq_false] at h ⊢
            exact ih _ h
        · simp only [hle, hne, hmod, if_true, if_false, ne_eq, not_false_eq_true] at h ⊢
          exact ih _ h
    · simp [hle]

/-! ## The composite branch -/

theorem ite_prop {α : Type} (P : α → Prop) (c : Prop) [Decidable c] (a b : α) (ha : P a)
    (hb : P b) : P (if c then a else b) := by
  by_cases h : c
  · rw [if_pos h]; exact ha
  · rw [if_neg h]; exact hb

/-- The values the family selection can produce. -/
theorem selectFamily_mem (pf : PrimeMap) (length : Nat) :
    selectFamily pf length ∈
      [(12, 128), (6, 256), (20, 64), (10, 128), (14, 64), (15, 128), (21, 128), (35, 64),
        (30, 64), (42, 60), (70, 36), (105, 24), (22, 128), (26, 128), (210, 12)] := by
  unfold selectFamily
  repeat' apply ite_prop (fun x : Nat × Nat => x ∈
      [(12, 128), (6, 256), (20, 64), (10, 128), (14, 64), (15, 128), (21, 128), (35, 64),
        (30, 64), (42, 60), (70, 36), (105, 24), (22, 128), (26, 128), (210, 12)])
  all_goals decide

theorem selectFamily_bounds (pf : PrimeMap) (length : Nat) :
    0 < (selectFamily pf length).1 ∧ 0 < (selectFamily pf length).2 ∧
      (selectFamily pf length).2 ≤ 256 := by
  have key : ∀ x ∈ [(12, 128), (6, 256), (20, 64), (10, 128), (14, 64), (15, 128), (21, 128),
      (35, 64), (30, 64), (42, 60), (70, 36), (105, 24), (22, 128), (26, 128), (210, 12)],
      0 < (x : Nat × Nat).1 ∧ 0 < x.2 ∧ x.2 ≤ 256 := by decide
  exact key _ (selectFamily_mem pf length)

/-- The second check fails when the selected `leastNumPerWI` does not divide the
length. -/
theorem compositeSizes_abort (fuel : Nat) (pf : PrimeMap) (length : Nat)
    (h : ¬ (selectFamily pf length).1 ∣ length) :
    compositeSizes fuel pf length = .abort .leastNumPerWI := by
  have hmod : ¬ length % (selectFamily pf length).1 = 0 :=
    fun hm => h (Nat.dvd_of_mod_eq_zero hm)
  simp [compositeSizes, hmod]

/-- When the second check passes, the composite branch returns, with the
finalized `leastNumPerWI` being the smallest suitable multiple. -/
theorem compositeSizes_ret (fuel : Nat) (pf : PrimeMap) (length : Nat) (h0 : 0 < length)
    (hb : length < 2 ^ 64) (hf : length ≤ fuel) (h : (selectFamily pf length).1 ∣ length) :
    ∃ m, IsFinalLnpi length (selectFamily pf length).1 m ∧
      compositeSizes fuel pf length =
        .ret (max 1 ((selectFamily pf length).2 / (length / m)) * (length / m),
          max 1 ((selectFamily pf length).2 / (length / m))) ∧
      0 < length / m ∧
      max 1 ((selectFamily pf length).2 / (length / m)) * (length / m)
        ≤ MAX_WORK_GROUP_SIZE := by
  obtain ⟨hL, hM0, hM⟩ := selectFamily_bounds pf length
  have hLle : (selectFamily pf length).1 ≤ length := Nat.le_of_dvd h0 h
  obtain ⟨m, hm, hfin⟩ := searchLnpi_spec length (selectFamily pf length).1 hb hL h fuel
    (selectFamily pf length).1 hL (dvd_refl _) hLle (by omega)
    (fun m1 hm1 hd1 hlt _ => absurd (Nat.le_of_dvd hm1 hd1) (by omega))
  obtain ⟨hmpos, hLm, hml, hq, hleast⟩ := hfin
  have hmle : m ≤ length := Nat.le_of_dvd h0 hml
  have hqpos : 0 < length / m := Nat.div_pos hmle hmpos
  have hq' : length / m ≤ 1024 := hq
  have hwgs : max 1 ((selectFamily pf length).2 / (length / m)) * (length / m) ≤ 1024 := by
    rcases Nat.lt_or_ge ((selectFamily pf length).2 / (length / m)) 1 with hlt | hge
    · rw [max_eq_left (by omega)]; omega
    · rw [max_eq_right hge]
      have := Nat.div_mul_le_self (selectFamily pf length).2 (length / m)
      omega
  refine ⟨m, ⟨hmpos, hLm, hml, hq, hleast⟩, ?_, hqpos, hwgs⟩
  have hmod : length % (selectFamily pf length).1 = 0 := Nat.mod_eq_zero_of_dvd h
  have hcap : ¬ (selectFamily pf length).2 > MAX_WORK_GROUP_SIZE := by
    unfold MAX_WORK_GROUP_SIZE; omega
  have hnt : (if (selectFamily pf length).2 / (length / m) < 1 then 1
      else (selectFamily pf length).2 / (length / m))
      = max 1 ((selectFamily pf length).2 / (length / m)) := by
    split_ifs with hc
    · rw [max_eq_left (by omega)]
    · rw [max_eq_right (by omega)]
  simp only [compositeSizes, hL, hmod, hm, hcap, Outcome.andThen_ret, if_false, if_true,
    and_self, not_true_eq_false, gt_iff_lt, Nat.pos_iff_ne_zero.1 hmpos,
    Nat.pos_iff_ne_zero.1 hqpos, hnt]
  rw [wrap_of_lt (by omega)]

theorem compositeSizes_mono (fuel n : Nat) (pf : PrimeMap) (length : Nat)
    (h : compositeSizes fuel pf length ≠ .timeout) :
    compositeSizes (fuel + n) pf length = compositeSizes fuel pf length := by
  unfold compositeSizes at h ⊢
  by_cases hc : (selectFamily pf length).1 > 0 ∧ length % (selectFamily pf length).1 = 0
  · simp only [hc, and_self, not_true_eq_false, if_false] at h ⊢
    have hs : searchLnpi fuel length (selectFamily pf length).1 (selectFamily pf length).1
        ≠ .timeout := by
      intro ht; rw [ht] at h; simp at h
    rw [searchLnpi_mono length _ n fuel _ hs]
  · simp [hc]

theorem branchSizes_mono (fuel n : Nat) (pf : PrimeMap) (length : Nat)
    (h : branchSizes fuel pf length ≠ .timeout) :
    branchSizes (fuel + n) pf length = branchSizes fuel pf length := by
  unfold branchSizes at h ⊢
  split_ifs at h ⊢ <;> first | rfl | exact compositeSizes_mono fuel n pf length h

/-- A call of `DetermineSizes` that finished gives the same result with any
larger amount of fuel. -/
theorem DetermineSizes_mono (fuel n length : Nat) (h : DetermineSizes fuel length ≠ .timeout) :
    DetermineSizes (fuel + n) length = DetermineSizes fuel length := by
  unfold DetermineSizes at h ⊢
  by_cases h64 : MAX_WORK_GROUP_SIZE ≥ 64
  · by_cases h1 : length = 1
    · simp [h1]
    · simp only [h64, not_true_eq_false, if_false, h1] at h ⊢
      have hfl : factorLoop fuel baseRadix length PrimeMap.empty ≠ .timeout := by
        intro ht; rw [ht] at h; simp at h
      rw [factorLoop_mono fuel n _ _ _ hfl]
      cases hr : factorLoop fuel baseRadix length PrimeMap.empty with
      | ret a =>
        obtain ⟨l, pf⟩ := a
        rw [hr] at h
        simp only [Outcome.andThen_ret] at h ⊢
        by_cases hl : l = 1
        · simp only [hl, ne_eq, not_true_eq_false, if_false] at h ⊢
          have hbs : branchSizes fuel pf length ≠ .timeout := by
            intro ht; rw [ht] at h; simp at h
          rw [branchSizes_mono fuel n pf length hbs]
        · simp [hl]
      | abort f => simp
      | timeout => exact absurd hr hfl
  · simp [h64]

/-! ## Which lengths pass the second check -/

/-- The family selection, with each test of the chain replaced by the
divisibility pattern it stands for. -/
theorem Expanded.selectFamily_eq {length : Nat} {pf : PrimeMap} (E : Expanded length pf)
    (hb : length < 2 ^ 64) :
    selectFamily pf length =
      if ¬ 5 ∣ length ∧ ¬ 7 ∣ length ∧ ¬ 11 ∣ length ∧ ¬ 13 ∣ length then
        if length % 12 = 0 then (12, 128) else (6, 256)
      else if ¬ 3 ∣ length ∧ ¬ 7 ∣ length ∧ ¬ 11 ∣ length ∧ ¬ 13 ∣ length then
        if length % 20 = 0 ∧ length ≠ 100 then (20, 64) else (10, 128)
      else if ¬ 3 ∣ length ∧ ¬ 5 ∣ length ∧ ¬ 11 ∣ length ∧ ¬ 13 ∣ length then (14, 64)
      else if ¬ 2 ∣ length ∧ ¬ 7 ∣ length ∧ ¬ 11 ∣ length ∧ ¬ 13 ∣ length then (15, 128)
      else if ¬ 2 ∣ length ∧ ¬ 5 ∣ length ∧ ¬ 11 ∣ length ∧ ¬ 13 ∣ length then (21, 128)
      else if ¬ 2 ∣ length ∧ ¬ 3 ∣ length ∧ ¬ 11 ∣ length ∧ ¬ 13 ∣ length then (35, 64)
      else if ¬ 7 ∣ length ∧ ¬ 11 ∣ length ∧ ¬ 13 ∣ length then (30, 64)
      else if ¬ 5 ∣ length ∧ ¬ 11 ∣ length ∧ ¬ 13 ∣ length then (42, 60)
      else if ¬ 3 ∣ length ∧ ¬ 11 ∣ length ∧ ¬ 13 ∣ length then (70, 36)
      else if ¬ 2 ∣ length ∧ ¬ 11 ∣ length ∧ ¬ 13 ∣ length then (105, 24)
      else if ¬ 3 ∣ length ∧ ¬ 5 ∣ length ∧ ¬ 7 ∣ length ∧ ¬ 13 ∣ length then (22, 128)
      else if ¬ 3 ∣ length ∧ ¬ 5 ∣ length ∧ ¬ 7 ∣ length ∧ ¬ 11 ∣ length then (26, 128)
      else (210, 12) := by
  unfold selectFamily
  simp only [E.pair_2_3 hb, E.pair_2_5 hb, E.pair_2_7 hb, E.pair_3_5 hb, E.pair_3_7 hb,
    E.pair_5_7 hb, E.pair_2_11 hb, E.pair_2_13 hb, E.triple_2_3_5 hb, E.triple_2_3_7 hb,
    E.triple_2_5_7 hb, E.triple_3_5_7 hb]

/-- Outside the pure prime powers, the selected `leastNumPerWI` divides the
length exactly for the lengths described by `Tuned`. -/
theorem Expanded.family_dvd_iff {length : Nat} {pf : PrimeMap} (E : Expanded length pf)
    (hb : length < 2 ^ 64) (h2 : pf 2 ≠ length) (h3 : pf 3 ≠ length) (h5 : pf 5 ≠ length)
    (h7 : pf 7 ≠ length) (h11 : pf 11 ≠ length) (h13 : pf 13 ≠ length) :
    (selectFamily pf length).1 ∣ length ↔ Tuned length := by
  rw [ne_eq, E.pure_2 hb] at h2
  rw [ne_eq, E.pure_3 hb] at h3
  rw [ne_eq, E.pure_5 hb] at h5
  rw [ne_eq, E.pure_7 hb] at h7
  rw [ne_eq, E.pure_11 hb] at h11
  rw [ne_eq, E.pure_13 hb] at h13
  rw [E.selectFamily_eq hb]
  unfold Tuned
  by_cases d2 : 2 ∣ length <;> by_cases d3 : 3 ∣ length <;> by_cases d5 : 5 ∣ length <;>
    by_cases d7 : 7 ∣ length <;> by_cases d11 : 11 ∣ length <;> by_cases d13 : 13 ∣ length <;>
    simp only [d2, d3, d5, d7, d11, d13, not_true_eq_false, not_false_eq_true, and_self,
      and_false, false_and, and_true, true_and, if_true, if_false, or_false, false_or,
      or_true, true_or, true_iff, false_iff, iff_true, iff_false] at h2 h3 h5 h7 h11 h13 ⊢ <;>
    (try split_ifs) <;> (try dsimp only) <;> omega

theorem Expanded.tuned_of_pure {length : Nat} {pf : PrimeMap} (E : Expanded length pf)
    (hb : length < 2 ^ 64)
    (h : pf 2 = length ∨ pf 3 = length ∨ pf 5 = length ∨ pf 7 = length ∨ pf 11 = length ∨
      pf 13 = length) : Tuned length := by
  rw [E.pure_2 hb, E.pure_3 hb, E.pure_5 hb, E.pure_7 hb, E.pure_11 hb, E.pure_13 hb] at h
  unfold Tuned
  tauto

/-! ## `DetermineSizes` as a whole -/

/-- With enough fuel, `DetermineSizes` on a length other than `1` is its
factorisation followed by the first check and the branch selection. -/
theorem DetermineSizes_eq (fuel length : Nat) (h0 : 0 < length) (h1 : length ≠ 1)
    (hf : length ≤ fuel) (hb : length < 2 ^ 64) :
    ∃ l pf, factorLoop fuel baseRadix length PrimeMap.empty = .ret (l, pf) ∧
      Factored length l pf ∧
      DetermineSizes fuel length =
        if l ≠ 1 then .abort .unsupportedLength
        else (branchSizes fuel pf length).andThen finalCheck := by
  obtain ⟨l, pf, hfl, hfac⟩ := factorLoop_spec fuel length h0 hf hb
  refine ⟨l, pf, hfl, hfac, ?_⟩
  have h64 : MAX_WORK_GROUP_SIZE ≥ 64 := by decide
  simp only [DetermineSizes, h64, not_true_eq_false, if_false, h1, hfl, Outcome.andThen_ret]

/-- Results of `DetermineSizes` carry over to any larger amount of fuel. -/
theorem DetermineSizes_of_le {f fuel length : Nat} {r : Outcome (Nat × Nat)}
    (h : DetermineSizes f length = r) (hr : r ≠ .timeout) (hle : f ≤ fuel) :
    DetermineSizes fuel length = r := by
  obtain ⟨n, rfl⟩ := Nat.exists_eq_add_of_le hle
  rw [DetermineSizes_mono f n length (by rw [h]; exact hr), h]

/-- The work-group size computed by the branches never exceeds the maximum. -/
theorem branchSizes_le (fuel : Nat) (pf : PrimeMap) (length : Nat) (h0 : 0 < length)
    (hb : length < 2 ^ 64) (wgs nt : Nat) (h : branchSizes fuel pf length = .ret (wgs, nt)) :
    wgs ≤ MAX_WORK_GROUP_SIZE := by
  have hbig : branchSizes (fuel + length) pf length = .ret (wgs, nt) := by
    rw [branchSizes_mono fuel length pf length (by rw [h]; simp), h]
  have hne : length ≠ 0 := by omega
  unfold branchSizes primePowerSizes at hbig
  unfold MAX_WORK_GROUP_SIZE at hbig ⊢
  split_ifs at hbig
  all_goals first
    | (simp only [Outcome.ret.injEq, Prod.mk.injEq] at hbig; omega)
    | skip
  by_cases hd : (selectFamily pf length).1 ∣ length
  · obtain ⟨m, -, hret, -, hle⟩ :=
      compositeSizes_ret (fuel + length) pf length h0 hb (by omega) hd
    rw [hret] at hbig
    simp only [Outcome.ret.injEq, Prod.mk.injEq] at hbig
    unfold MAX_WORK_GROUP_SIZE at hle
    omega
  · rw [compositeSizes_abort _ _ _ hd] at hbig
    simp at hbig

/-- The branch selection either takes one of the six pure prime-power branches,
which return, or it is the composite branch. -/
theorem branchSizes_cases (fuel : Nat) (pf : PrimeMap) (length : Nat) (h0 : 0 < length) :
    ((pf 2 = length ∨ pf 3 = length ∨ pf 5 = length ∨ pf 7 = length ∨ pf 11 = length ∨
        pf 13 = length) ∧ ∃ r, branchSizes fuel pf length = .ret r) ∨
    ((pf 2 ≠ length ∧ pf 3 ≠ length ∧ pf 5 ≠ length ∧ pf 7 ≠ length ∧ pf 11 ≠ length ∧
        pf 13 ≠ length) ∧ branchSizes fuel pf length = compositeSizes fuel pf length) := by
  have hne : length ≠ 0 := by omega
  unfold branchSizes primePowerSizes
  by_cases h2 : pf 2 = length
  · left
    refine ⟨Or.inl h2, ?_⟩
    simp only [h2, if_true, hne, if_false]
    split_ifs <;> exact ⟨_, rfl⟩
  by_cases h3 : pf 3 = length
  · left
    refine ⟨by tauto, ?_⟩
    simp only [h2, h3, if_true, hne, if_false]
    split_ifs <;> exact ⟨_, rfl⟩
  by_cases h5 : pf 5 = length
  · left
    refine ⟨by tauto, ?_⟩
    simp only [h2, h3, h5, if_true, hne, if_false]
    split_ifs <;> exact ⟨_, rfl⟩
  by_cases h7 : pf 7 = length
  · left
    refine ⟨by tauto, ?_⟩
    simp only [h2, h3, h5, h7, if_true, hne, if_false]
    split_ifs <;> exact ⟨_, rfl⟩
  by_cases h11 : pf 11 = length
  · left
    refine ⟨by tauto, ?_⟩
    simp only [h2, h3, h5, h7, h11, if_true, hne, if_false]
    split_ifs <;> exact ⟨_, rfl⟩
  by_cases h13 : pf 13 = length
  · left
    refine ⟨by tauto, ?_⟩
    simp only [h2, h3, h5, h7, h11, h13, if_true, hne, if_false]
    split_ifs <;> exact ⟨_, rfl⟩
  right
  refine ⟨⟨h2, h3, h5, h7, h11, h13⟩, ?_⟩
  simp only [h2, h3, h5, h7, h11, h13, if_false]

/-- A branch result passes the final assertion unchanged. -/
theorem finalCheck_of_branch (fuel : Nat) (pf : PrimeMap) (length : Nat) (h0 : 0 < length)
    (hb : length < 2 ^ 64) (r : Nat × Nat) (h : branchSizes fuel pf length = .ret r) :
    (branchSizes fuel pf length).andThen finalCheck = .ret r ∧ r.1 ≤ MAX_WORK_GROUP_SIZE := by
  have hle := branchSizes_le fuel pf length h0 hb r.1 r.2 h
  rw [h]
  simp [finalCheck, hle]

/-- For a supported length other than `1`, with enough fuel: the factorisation
has residue `1` and `DetermineSizes` is the branch selection followed by the
final assertion. -/
theorem DetermineSizes_supported_eq (fuel length : Nat) (h0 : 0 < length) (h1 : length ≠ 1)
    (hf : length ≤ fuel) (hb : length < 2 ^ 64) (hs : Supported length) :
    ∃ pf, factorLoop fuel baseRadix length PrimeMap.empty = .ret (1, pf) ∧
      Expanded length pf ∧
      DetermineSizes fuel length = (branchSizes fuel pf length).andThen finalCheck := by
  obtain ⟨l, pf, hfl, hfac, heq⟩ := DetermineSizes_eq fuel length h0 h1 hf hb
  have hl : l = 1 := hfac.residue_eq_one_iff.2 hs
  subst hl
  exact ⟨pf, hfl, hfac.expanded, by simpa using heq⟩

/-- For a length with an unsupported prime factor, with enough fuel, the first
check fails. -/
theorem DetermineSizes_unsupported_eq (fuel length : Nat) (h0 : 0 < length)
    (hf : length ≤ fuel) (hb : length < 2 ^ 64) (hs : ¬ Supported length) :
    DetermineSizes fuel length = .abort .unsupportedLength := by
  have h1 : length ≠ 1 := by
    rintro rfl
    apply hs
    intro p hp hd
    exact absurd (Nat.le_of_dvd (by decide) hd) (by have := hp.two_le; omega)
  obtain ⟨l, pf, hfl, hfac, heq⟩ := DetermineSizes_eq fuel length h0 h1 hf hb
  have hl : l ≠ 1 := fun h => hs (hfac.residue_eq_one_iff.1 h)
  simpa [hl] using heq

/-- The outcome of `DetermineSizes` on supported lengths, with enough fuel. -/
theorem DetermineSizes_supported_outcome (fuel length : Nat) (h0 : 0 < length)
    (hf : length ≤ fuel) (hb : length < 2 ^ 64) (hs : Supported length) :
    (Tuned length →
      ∃ wgs nt, DetermineSizes fuel length = .ret (wgs, nt) ∧ wgs ≤ MAX_WORK_GROUP_SIZE) ∧
    (¬ Tuned length → DetermineSizes fuel length = .abort .leastNumPerWI) := by
  by_cases h1 : length = 1
  · subst h1
    have ht : Tuned 1 := Or.inl ⟨by decide, by decide⟩
    exact ⟨fun _ => ⟨64, 64, by simp [DetermineSizes, MAX_WORK_GROUP_SIZE], by decide⟩,
      fun h => absurd ht h⟩
  obtain ⟨pf, -, E, heq⟩ := DetermineSizes_supported_eq fuel length h0 h1 hf hb hs
  rw [heq]
  rcases branchSizes_cases fuel pf length h0 with ⟨hpure, r, hr⟩ | ⟨hnp, hcomp⟩
  · have ht := E.tuned_of_pure hb hpure
    obtain ⟨hfin, hle⟩ := finalCheck_of_branch fuel pf length h0 hb r hr
    exact ⟨fun _ => ⟨r.1, r.2, hfin, hle⟩, fun h => absurd ht h⟩
  · obtain ⟨h2, h3, h5, h7, h11, h13⟩ := hnp
    have hiff := E.family_dvd_iff hb h2 h3 h5 h7 h11 h13
    constructor
    · intro ht
      obtain ⟨m, -, hret, -, -⟩ :=
        compositeSizes_ret fuel pf length h0 hb hf (hiff.2 ht)
      obtain ⟨hfin, hle⟩ := finalCheck_of_branch fuel pf length h0 hb _ (hcomp.trans hret)
      exact ⟨_, _, hfin, hle⟩
    · intro ht
      rw [hcomp, compositeSizes_abort fuel pf length (fun h => ht (hiff.1 h))]
      rfl

/-- With enough fuel a call ends in a normal return or in one of the first two
assertions, never in the final one. -/
theorem DetermineSizes_outcomes (fuel length : Nat) (h0 : 0 < length) (hf : length ≤ fuel)
    (hb : length < 2 ^ 64) :
    (∃ r, DetermineSizes fuel length = .ret r) ∨
      DetermineSizes fuel length = .abort .unsupportedLength ∨
      DetermineSizes fuel length = .abort .leastNumPerWI := by
  by_cases hs : Supported length
  · obtain ⟨h1, h2⟩ := DetermineSizes_supported_outcome fuel length h0 hf hb hs
    by_cases ht : Tuned length
    · obtain ⟨wgs, nt, h, -⟩ := h1 ht
      exact Or.inl ⟨_, h⟩
    · exact Or.inr (Or.inr (h2 ht))
  · exact Or.inr (Or.inl (DetermineSizes_unsupported_eq fuel length h0 hf hb hs))

/-! ## Pure prime powers -/

theorem baseRadix_prime : ∀ p ∈ baseRadix, Nat.Prime p := by
  intro p hp
  simp only [baseRadix, List.mem_cons, List.mem_singleton, List.not_mem_nil, or_false] at hp
  rcases hp with rfl | rfl | rfl | rfl | rfl | rfl <;> norm_num

theorem Expanded.one {length : Nat} {pf : PrimeMap} (E : Expanded length pf) :
    ∀ q ∈ baseRadix, (pf q = 1 ↔ ¬ q ∣ length) := by
  intro q hq
  simp only [baseRadix, List.mem_cons, List.mem_singleton, List.not_mem_nil, or_false] at hq
  rcases hq with rfl | rfl | rfl | rfl | rfl | rfl
  · exact E.one13
  · exact E.one11
  · exact E.one7
  · exact E.one5
  · exact E.one3
  · exact E.one2

theorem supported_prime_pow (p k : Nat) (hp : p ∈ baseRadix) : Supported (p ^ k) := by
  intro q hq hd
  have hpp := baseRadix_prime p hp
  have : q = p := (Nat.prime_dvd_prime_iff_eq hq hpp).1 (hq.dvd_of_dvd_pow hd)
  rw [this]
  exact hp

/-- On a pure power `p ^ k` (`k ≥ 1`) of a supported prime, with enough fuel,
the factorisation records `p ^ k` for `p` and `1` for the other primes, so that
`DetermineSizes` takes the branch of `p`. -/
theorem DetermineSizes_prime_pow (fuel p k : Nat) (hp : p ∈ baseRadix) (hk : 1 ≤ k)
    (hf : p ^ k ≤ fuel) (hb : p ^ k < 2 ^ 64) :
    ∃ pf, DetermineSizes fuel (p ^ k) = (branchSizes fuel pf (p ^ k)).andThen finalCheck ∧
      pf p = p ^ k ∧ (∀ q ∈ baseRadix, q ≠ p → pf q ≠ p ^ k) ∧ 2 ≤ p ^ k := by
  have hpp := baseRadix_prime p hp
  have h2 : 2 ≤ p ^ k := by
    calc 2 ≤ p := hpp.two_le
      _ = p ^ 1 := (pow_one p).symm
      _ ≤ p ^ k := Nat.pow_le_pow_right (by have := hpp.two_le; omega) hk
  obtain ⟨pf, -, E, heq⟩ := DetermineSizes_supported_eq fuel (p ^ k) (by omega) (by omega) hf hb
    (supported_prime_pow p k hp)
  have hone : ∀ q ∈ baseRadix, q ≠ p → pf q = 1 := by
    intro q hq hne
    rw [E.one q hq]
    intro hd
    have hqp := baseRadix_prime q hq
    exact hne ((Nat.prime_dvd_prime_iff_eq hqp hpp).1 (hqp.dvd_of_dvd_pow hd))
  refine ⟨pf, heq, ?_, fun q hq hne => by rw [hone q hq hne]; omega, h2⟩
  have hprod := E.prod
  simp only [baseRadix, List.mem_cons, List.mem_singleton, List.not_mem_nil, or_false] at hp
  rcases hp with rfl | rfl | rfl | rfl | rfl | rfl
  · rw [hone 2 (by decide) (by decide), hone 3 (by decide) (by decide),
      hone 5 (by decide) (by decide), hone 7 (by decide) (by decide),
      hone 11 (by decide) (by decide)] at hprod
    simpa using hprod.symm
  · rw [hone 2 (by decide) (by decide), hone 3 (by decide) (by decide),
      hone 5 (by decide) (by decide), hone 7 (by decide) (by decide),
      hone 13 (by decide) (by decide)] at hprod
    simpa using hprod.symm
  · rw [hone 2 (by decide) (by decide), hone 3 (by decide) (by decide),
      hone 5 (by decide) (by decide), hone 11 (by decide) (by decide),
      hone 13 (by decide) (by decide)] at hprod
    simpa using hprod.symm
  · rw [hone 2 (by decide) (by decide), hone 3 (by decide) (by decide),
      hone 7 (by decide) (by decide), hone 11 (by decide) (by decide),
      hone 13 (by decide) (by decide)] at hprod
    simpa using hprod.symm
  · rw [hone 2 (by decide) (by decide), hone 5 (by decide) (by decide),
      hone 7 (by decide) (by decide), hone 11 (by decide) (by decide),
      hone 13 (by decide) (by decide)] at hprod
    simpa using hprod.symm
  · rw [hone 3 (by decide) (by decide), hone 5 (by decide) (by decide),
      hone 7 (by decide) (by decide), hone 11 (by decide) (by decide),
      hone 13 (by decide) (by decide)] at hprod
    simpa using hprod.symm

/-- In a pure prime-power factorisation no other supported prime divides the
length. -/
theorem Expanded.pure {length : Nat} {pf : PrimeMap} (E : Expanded length pf)
    (hb : length < 2 ^ 64) :
    ∀ r ∈ baseRadix, pf r = length → ∀ t ∈ baseRadix, t ≠ r → ¬ t ∣ length := by
  intro r hr h t ht hne
  simp only [baseRadix, List.mem_cons, List.mem_singleton, List.not_mem_nil, or_false] at hr ht
  rcases hr with rfl | rfl | rfl | rfl | rfl | rfl
  · have hh := (E.pure_13 hb).1 h
    rcases ht with rfl | rfl | rfl | rfl | rfl | rfl <;> first | exact absurd rfl hne | tauto
  · have hh := (E.pure_11 hb).1 h
    rcases ht with rfl | rfl | rfl | rfl | rfl | rfl <;> first | exact absurd rfl hne | tauto
  · have hh := (E.pure_7 hb).1 h
    rcases ht with rfl | rfl | rfl | rfl | rfl | rfl <;> first | exact absurd rfl hne | tauto
  · have hh := (E.pure_5 hb).1 h
    rcases ht with rfl | rfl | rfl | rfl | rfl | rfl <;> first | exact absurd rfl hne | tauto
  · have hh := (E.pure_3 hb).1 h
    rcases ht with rfl | rfl | rfl | rfl | rfl | rfl <;> first | exact absurd rfl hne | tauto
  · have hh := (E.pure_2 hb).1 h
    rcases ht with rfl | rfl | rfl | rfl | rfl | rfl <;> first | exact absurd rfl hne | tauto

/-- The composite branch in closed form, for a supported length divisible by two
distinct primes. -/
theorem DetermineSizes_composite_eq (fuel length p q : Nat) (h0 : 0 < length)
    (hb : length < 2 ^ 64) (hf : length ≤ fuel) (hs : Supported length) (hp : p.Prime)
    (hq : q.Prime) (hpq : p ≠ q) (hpd : p ∣ length) (hqd : q ∣ length) :
    ∃ pf, factorLoop fuel baseRadix length PrimeMap.empty = .ret (1, pf) ∧
      (∀ r ∈ baseRadix, pf r ≠ length) ∧
      ((selectFamily pf length).1 ∣ length →
        ∃ m, IsFinalLnpi length (selectFamily pf length).1 m ∧
          DetermineSizes fuel length =
            .ret (max 1 ((selectFamily pf length).2 / (length / m)) * (length / m),
              max 1 ((selectFamily pf length).2 / (length / m))) ∧
          0 < max 1 ((selectFamily pf length).2 / (length / m)) * (length / m) ∧
          0 < max 1 ((selectFamily pf length).2 / (length / m))) := by
  have h1 : length ≠ 1 := by
    rintro rfl
    have := Nat.le_of_dvd (by decide) hpd
    have := hp.two_le
    omega
  obtain ⟨pf, hpf, E, heq⟩ := DetermineSizes_supported_eq fuel length h0 h1 hf hb hs
  have hnp : ∀ r ∈ baseRadix, pf r ≠ length := by
    intro r hr h
    by_cases hpr : p = r
    · exact E.pure hb r hr h q (hs q hq hqd) (fun hqr => hpq (hpr.trans hqr.symm)) hqd
    · exact E.pure hb r hr h p (hs p hp hpd) hpr hpd
  refine ⟨pf, hpf, hnp, ?_⟩
  intro hd
  obtain ⟨m, hm, hret, hqpos, hle⟩ := compositeSizes_ret fuel pf length h0 hb hf hd
  rcases branchSizes_cases fuel pf length h0 with ⟨hpure, -⟩ | ⟨-, hcomp⟩
  · exfalso
    rcases hpure with h | h | h | h | h | h
    · exact hnp 2 (by decide) h
    · exact hnp 3 (by decide) h
    · exact hnp 5 (by decide) h
    · exact hnp 7 (by decide) h
    · exact hnp 11 (by decide) h
    · exact hnp 13 (by decide) h
  · obtain ⟨hfin, -⟩ := finalCheck_of_branch fuel pf length h0 hb _ (hcomp.trans hret)
    have hnt : 0 < max 1 ((selectFamily pf length).2 / (length / m)) :=
      lt_of_lt_of_le Nat.one_pos (le_max_left _ _)
    exact ⟨m, hm, heq.trans hfin, Nat.mul_pos hnt hqpos, hnt⟩

theorem isFinalLnpi_unique {length L m1 m2 : Nat} (h1 : IsFinalLnpi length L m1)
    (h2 : IsFinalLnpi length L m2) : m1 = m2 := by
  obtain ⟨p1, d1, l1, q1, least1⟩ := h1
  obtain ⟨p2, d2, l2, q2, least2⟩ := h2
  exact Nat.le_antisymm (least1 m2 p2 d2 l2 q2) (least2 m1 p1 d1 l1 q1)

/-- The first candidate is final when its quotient is small enough. -/
theorem isFinalLnpi_self {length L : Nat} (hL : 0 < L) (hd : L ∣ length)
    (hq : length / L ≤ MAX_WORK_GROUP_SIZE) : IsFinalLnpi length L L :=
  ⟨hL, dvd_refl L, hd, hq, fun _ hm hdm _ _ => Nat.le_of_dvd hm hdm⟩

/-! ## The enumeration loops of `Single2DSizes` -/

theorem Outcome.andThen_assoc {α β γ : Type} (x : Outcome α) (f : α → Outcome β)
    (g : β → Outcome γ) : (x.andThen f).andThen g = x.andThen fun a => (f a).andThen g := by
  cases x <;> rfl

theorem Outcome.exists_of_returns {α : Type} {x : Outcome α} {P : α → Prop}
    (h : x.Returns P) : ∃ a, x = .ret a ∧ P a := by
  cases x with
  | ret a => exact ⟨a, rfl, h⟩
  | abort f => exact absurd h id
  | timeout => exact absurd h id

theorem forDiv_pow2 {σ : Type} (body : Nat → σ → Outcome σ) (s : σ) :
    forDiv MAX_2D_POW2 MIN_2D_POW2 2 body s = foldOutcome body pow2Sizes s := rfl

theorem forDiv_pow3 {σ : Type} (body : Nat → σ → Outcome σ) (s : σ) :
    forDiv MAX_2D_POW3 MIN_2D_POW3 3 body s = foldOutcome body pow3Sizes s := rfl

theorem forDiv_pow5 {σ : Type} (body : Nat → σ → Outcome σ) (s : σ) :
    forDiv MAX_2D_POW5 MIN_2D_POW5 5 body s = foldOutcome body pow5Sizes s := rfl

theorem foldOutcome_append {α σ : Type} (body : α → σ → Outcome σ) (xs ys : List α) (s : σ) :
    foldOutcome body (xs ++ ys) s = (foldOutcome body xs s).andThen (foldOutcome body ys) := by
  induction xs generalizing s with
  | nil => rfl
  | cons a rest ih =>
    simp only [List.cons_append, foldOutcome, Outcome.andThen_assoc]
    congr 1
    funext s1
    exact ih s1

theorem foldOutcome_map {α β σ : Type} (body : β → σ → Outcome σ) (f : α → β) (xs : List α)
    (s : σ) : foldOutcome body (xs.map f) s = foldOutcome (fun a => body (f a)) xs s := by
  induction xs generalizing s with
  | nil => rfl
  | cons a rest ih =>
    simp only [List.map_cons, foldOutcome]
    congr 1
    funext s1
    exact ih s1

/-- Two nested loops visit the product of their ranges, outer variable first. -/
theorem foldOutcome_product {σ : Type} (body : Nat × Nat → σ → Outcome σ) (xs ys : List Nat)
    (s : σ) :
    foldOutcome (fun i s1 => foldOutcome (fun j s2 => body (i, j) s2) ys s1) xs s =
      foldOutcome body (xs.product ys) s := by
  induction xs generalizing s with
  | nil => rfl
  | cons a rest ih =>
    have hp : (a :: rest).product ys = ys.map (Prod.mk a) ++ rest.product ys := by
      simp [List.product, List.flatMap]
    rw [hp, foldOutcome_append, foldOutcome_map]
    simp only [foldOutcome]
    congr 1
    funext s1
    exact ih s1

/-- The body of `Single2DSizes` is one pass of `Add2DSingleSize` over the
candidate pairs. -/
theorem enumerate2D_eq (ldsSizeBytes : Nat) (precision : rocfft_precision) (p : Provider) :
    enumerate2D ldsSizeBytes precision p =
      foldOutcome (fun x retval => Add2DSingleSize x.1 x.2 (realSize precision)
        (2 * realSize precision) ldsSizeBytes p retval) candidates [] := by
  simp only [enumerate2D, enumPass, forDiv_pow2, forDiv_pow3, forDiv_pow5]
  simp only [foldOutcome_product (fun x retval => Add2DSingleSize x.1 x.2 (realSize precision)
        (2 * realSize precision) ldsSizeBytes p retval)]
  simp only [candidates, foldOutcome_append, Outcome.andThen_assoc]

/-! ## What `Single2DSizes` returns -/

theorem Add2DSingleSize_eq (i j real elem lds : Nat) (p : Provider) (r : List (Nat × Nat)) :
    Add2DSingleSize i j real elem lds p r =
      if accepts real elem lds p (i, j) = true then .ret (r ++ [(i, j)])
      else if wrap (wrap (wrap (i * j) * elem) + wrap (wrap (i * j) * real)) ≤ lds then
        (Get2DSingleThreadCount i j p).andThen fun _ => .ret r
      else .ret r := by
  unfold Add2DSingleSize accepts
  by_cases hm : wrap (wrap (wrap (i * j) * elem) + wrap (wrap (i * j) * real)) ≤ lds
  · cases hg : Get2DSingleThreadCount i j p with
    | ret t => by_cases ht : t < MAX_WORK_GROUP_SIZE <;> simp [hm, ht]
    | abort f => simp [hm]
    | timeout => simp [hm]
  · simp [hm]

/-- Whenever the enumeration returns, its result is the list of the candidates
that pass both tests, in the order of the visits. -/
theorem foldOutcome_add_filter (real elem lds : Nat) (p : Provider) :
    ∀ (cs r out : List (Nat × Nat)),
      foldOutcome (fun x retval => Add2DSingleSize x.1 x.2 real elem lds p retval) cs r
        = .ret out →
      out = r ++ cs.filter (accepts real elem lds p) := by
  intro cs
  induction cs with
  | nil =>
    intro r out h
    simp only [foldOutcome, Outcome.ret.injEq] at h
    simp [h]
  | cons x rest ih =>
    intro r out h
    obtain ⟨i, j⟩ := x
    have h1 : (Add2DSingleSize i j real elem lds p r).andThen
        (foldOutcome (fun x retval => Add2DSingleSize x.1 x.2 real elem lds p retval) rest)
        = .ret out := h
    rw [Add2DSingleSize_eq] at h1
    by_cases ha : accepts real elem lds p (i, j) = true
    · rw [if_pos ha, Outcome.andThen_ret] at h1
      rw [ih _ _ h1]
      simp [List.filter_cons, ha]
    · rw [if_neg ha] at h1
      have hstep : foldOutcome (fun x retval =>
          Add2DSingleSize x.1 x.2 real elem lds p retval) rest r = .ret out := by
        by_cases hm : wrap (wrap (wrap (i * j) * elem) + wrap (wrap (i * j) * real)) ≤ lds
        · rw [if_pos hm] at h1
          cases hg : Get2DSingleThreadCount i j p with
          | ret t => rw [hg] at h1; exact h1
          | abort f => rw [hg] at h1; simp at h1
          | timeout => rw [hg] at h1; simp at h1
        · rw [if_neg hm, Outcome.andThen_ret] at h1
          exact h1
      rw [ih _ _ hstep]
      simp [List.filter_cons, ha]

/-- The enumeration returns when the thread count can be computed for every
candidate. -/
theorem foldOutcome_add_returns (real elem lds : Nat) (p : Provider) :
    ∀ (cs r : List (Nat × Nat)),
      (∀ x ∈ cs, ∃ t, Get2DSingleThreadCount x.1 x.2 p = .ret t) →
      ∃ out, foldOutcome (fun x retval => Add2DSingleSize x.1 x.2 real elem lds p retval) cs r
        = .ret out := by
  intro cs
  induction cs with
  | nil => intro r _; exact ⟨r, rfl⟩
  | cons x rest ih =>
    intro r h
    obtain ⟨t, ht⟩ := h x (List.mem_cons_self _ _)
    have hrest : ∀ y ∈ rest, ∃ t, Get2DSingleThreadCount y.1 y.2 p = .ret t :=
      fun y hy => h y (List.mem_cons_of_mem _ hy)
    obtain ⟨i, j⟩ := x
    show ∃ out, (Add2DSingleSize i j real elem lds p r).andThen
        (foldOutcome (fun x retval => Add2DSingleSize x.1 x.2 real elem lds p retval) rest)
        = .ret out
    rw [Add2DSingleSize_eq, ht]
    split_ifs
    · exact ih _ hrest
    · exact ih _ hrest
    · exact ih _ hrest

/-- The thread count in closed form, for provider answers that are positive and
do not make `numTransforms * length` wrap. -/
theorem Get2DSingleThreadCount_eq (i j : Nat) (p : Provider) (w0 n0 w1 n1 : Nat)
    (h0 : p i = .ret (w0, n0)) (h1 : p j = .ret (w1, n1)) (hw0 : 0 < w0) (hw1 : 0 < w1)
    (hn0 : w0 ≤ n0 * i) (hn1 : w1 ≤ n1 * j) (hb0 : n0 * i < 2 ^ 64) (hb1 : n1 * j < 2 ^ 64)
    (hij : i * j < 2 ^ 64) :
    Get2DSingleThreadCount i j p =
      .ret (max (i * j / (n0 * i / w0)) (i * j / (n1 * j / w1))) := by
  have c0 : n0 * i / w0 ≠ 0 := Nat.pos_iff_ne_zero.1 (Nat.div_pos hn0 hw0)
  have c1 : n1 * j / w1 ≠ 0 := Nat.pos_iff_ne_zero.1 (Nat.div_pos hn1 hw1)
  simp only [Get2DSingleThreadCount, h0, h1, Outcome.andThen_ret, wrap_of_lt hb0,
    wrap_of_lt hb1, wrap_of_lt hij, Nat.pos_iff_ne_zero.1 hw0, Nat.pos_iff_ne_zero.1 hw1,
    c0, c1, if_false]

theorem mem_fusionSizes_iff (d : Nat) : d ∈ fusionSizes ↔ InFusionFamily d := by
  unfold InFusionFamily
  constructor
  · intro h
    simp only [fusionSizes, pow2Sizes, pow3Sizes, pow5Sizes, List.cons_append, List.nil_append,
      List.mem_cons, List.mem_singleton, List.not_mem_nil, or_false] at h
    rcases h with rfl | rfl | rfl | rfl | rfl | rfl | rfl | rfl | rfl | rfl | rfl | rfl | rfl |
      rfl | rfl | rfl
    · exact Or.inl ⟨9, by norm_num⟩
    · exact Or.inl ⟨8, by norm_num⟩
    · exact Or.inl ⟨7, by norm_num⟩
    · exact Or.inl ⟨6, by norm_num⟩
    · exact Or.inl ⟨5, by norm_num⟩
    · exact Or.inl ⟨4, by norm_num⟩
    · exact Or.inl ⟨3, by norm_num⟩
    · exact Or.inl ⟨2, by norm_num⟩
    · exact Or.inr (Or.inl ⟨6, by norm_num⟩)
    · exact Or.inr (Or.inl ⟨5, by norm_num⟩)
    · exact Or.inr (Or.inl ⟨4, by norm_num⟩)
    · exact Or.inr (Or.inl ⟨3, by norm_num⟩)
    · exact Or.inr (Or.inl ⟨2, by norm_num⟩)
    · exact Or.inr (Or.inr ⟨4, by norm_num⟩)
    · exact Or.inr (Or.inr ⟨3, by norm_num⟩)
    · exact Or.inr (Or.inr ⟨2, by norm_num⟩)
  · have small : ∀ b k n : Nat, 2 ≤ b → b ^ k ≤ n → k < n := by
      intro b k n hb h
      have h1 : k < 2 ^ k := Nat.lt_two_pow k
      have h2 : 2 ^ k ≤ b ^ k := Nat.pow_le_pow_left hb k
      omega
    rintro (⟨k, rfl, hlo, hhi⟩ | ⟨k, rfl, hlo, hhi⟩ | ⟨k, rfl, hlo, hhi⟩)
    · have hk : k < 10 := by
        by_contra hc
        have : 2 ^ 10 ≤ 2 ^ k := Nat.pow_le_pow_right (by decide) (by omega)
        omega
      interval_cases k <;> simp_all [fusionSizes, pow2Sizes, pow3Sizes, pow5Sizes]
    · have hk : k < 7 := by
        by_contra hc
        have : 3 ^ 7 ≤ 3 ^ k := Nat.pow_le_pow_right (by decide) (by omega)
        omega
      interval_cases k <;> simp_all [fusionSizes, pow2Sizes, pow3Sizes, pow5Sizes]
    · have hk : k < 5 := by
        by_contra hc
        have : 5 ^ 5 ≤ 5 ^ k := Nat.pow_le_pow_right (by decide) (by omega)
        omega
      interval_cases k <;> simp_all [fusionSizes, pow2Sizes, pow3Sizes, pow5Sizes]

theorem mem_candidates_iff (i j : Nat) :
    (i, j) ∈ candidates ↔ i ∈ fusionSizes ∧ j ∈ fusionSizes := by
  simp only [candidates, fusionSizes, List.mem_append, List.pair_mem_product]
  tauto

theorem fusionSizes_le : ∀ d ∈ fusionSizes, d ≤ 729 := by decide

theorem realSize_le (precision : rocfft_precision) : realSize precision ≤ 8 := by
  cases precision <;> decide

/-- The memory test on a candidate pair involves no wrap-around. -/
theorem memory_no_wrap (i j real : Nat) (hi : i ≤ 729) (hj : j ≤ 729) (hr : real ≤ 8) :
    wrap (wrap (wrap (i * j) * (2 * real)) + wrap (wrap (i * j) * real))
      = i * j * (2 * real) + i * j * real ∧ i * j < 2 ^ 64 := by
  have hij : i * j ≤ 729 * 729 := Nat.mul_le_mul hi hj
  have h1 : i * j * (2 * real) ≤ 729 * 729 * (2 * 8) := Nat.mul_le_mul hij (by omega)
  have h2 : i * j * real ≤ 729 * 729 * 8 := Nat.mul_le_mul hij hr
  have e0 : wrap (i * j) = i * j := wrap_of_lt (by omega)
  have e1 : wrap (i * j * (2 * real)) = i * j * (2 * real) := wrap_of_lt (by omega)
  have e2 : wrap (i * j * real) = i * j * real := wrap_of_lt (by omega)
  rw [e0, e1, e2]
  exact ⟨wrap_of_lt (by omega), by omega⟩

/-- Soundness and completeness of `Single2DSizes` for a provider that answers
every candidate length with a positive work-group size not above
`numTransforms * length`, the product staying within `size_t`. -/
theorem Single2DSizes_spec (b : Nat) (precision : rocfft_precision) (p : Provider)
    (wgs nt : Nat → Nat)
    (hp : ∀ d, InFusionFamily d →
      p d = .ret (wgs d, nt d) ∧ 0 < wgs d ∧ wgs d ≤ nt d * d ∧ nt d * d < 2 ^ 64) :
    ∃ out, Single2DSizes b precision p = .ret out ∧
      out = candidates.filter
        (accepts (realSize precision) (2 * realSize precision) (clampLds b) p) ∧
      ∀ i j, (i, j) ∈ out ↔
        InFusionFamily i ∧ InFusionFamily j ∧
        i * j * (2 * realSize precision) + i * j * realSize precision ≤ clampLds b ∧
        max (i * j / (nt i * i / wgs i)) (i * j / (nt j * j / wgs j)) < 1024 := by
  have hthreads : ∀ i j, i ∈ fusionSizes → j ∈ fusionSizes →
      Get2DSingleThreadCount i j p =
        .ret (max (i * j / (nt i * i / wgs i)) (i * j / (nt j * j / wgs j))) := by
    intro i j hi hj
    obtain ⟨pi, wi, ni, bi⟩ := hp i ((mem_fusionSizes_iff i).1 hi)
    obtain ⟨pj, wj, nj, bj⟩ := hp j ((mem_fusionSizes_iff j).1 hj)
    exact Get2DSingleThreadCount_eq i j p _ _ _ _ pi pj wi wj ni nj bi bj
      (memory_no_wrap i j 0 (fusionSizes_le i hi) (fusionSizes_le j hj) (by omega)).2
  have hret : ∀ x ∈ candidates, ∃ t, Get2DSingleThreadCount x.1 x.2 p = .ret t := by
    rintro ⟨i, j⟩ hx
    obtain ⟨hi, hj⟩ := (mem_candidates_iff i j).1 hx
    exact ⟨_, hthreads i j hi hj⟩
  obtain ⟨out, hout⟩ := foldOutcome_add_returns (realSize precision) (2 * realSize precision)
    (clampLds b) p candidates [] hret
  have hfilter := foldOutcome_add_filter _ _ _ _ _ _ _ hout
  rw [List.nil_append] at hfilter
  refine ⟨out, by rw [Single2DSizes, enumerate2D_eq]; exact hout, hfilter, ?_⟩
  intro i j
  rw [hfilter, List.mem_filter, mem_candidates_iff, ← mem_fusionSizes_iff,
    ← mem_fusionSizes_iff]
  constructor
  · rintro ⟨⟨hi, hj⟩, hacc⟩
    have hm := (memory_no_wrap i j (realSize precision) (fusionSizes_le i hi)
      (fusionSizes_le j hj) (realSize_le precision)).1
    simp only [accepts, hm, hthreads i j hi hj, Bool.and_eq_true, decide_eq_true_eq,
      MAX_WORK_GROUP_SIZE] at hacc
    exact ⟨hi, hj, hacc.1, hacc.2⟩
  · rintro ⟨hi, hj, hmem, hthr⟩
    have hm := (memory_no_wrap i j (realSize precision) (fusionSizes_le i hi)
      (fusionSizes_le j hj) (realSize_le precision)).1
    refine ⟨⟨hi, hj⟩, ?_⟩
    simp only [accepts, hm, hthreads i j hi hj, Bool.and_eq_true, decide_eq_true_eq,
      MAX_WORK_GROUP_SIZE]
    exact ⟨hmem, hthr⟩

/-- `DetermineSizes` as the provider of the enumeration: for every candidate
length it returns a positive work-group size that divides into
`numTransforms * length` at least once. -/
theorem DetermineSizes_fusion (fuel : Nat) (hf : 729 ≤ fuel) :
    ∀ d, InFusionFamily d →
      DetermineSizes fuel d = .ret ((fusionAnswer d).1, (fusionAnswer d).2) ∧
      0 < (fusionAnswer d).1 ∧ (fusionAnswer d).1 ≤ (fusionAnswer d).2 * d ∧
      (fusionAnswer d).2 * d < 2 ^ 64 := by
  have key : ∀ d ∈ fusionSizes,
      DetermineSizes 729 d = .ret ((fusionAnswer d).1, (fusionAnswer d).2) ∧
      0 < (fusionAnswer d).1 ∧ (fusionAnswer d).1 ≤ (fusionAnswer d).2 * d ∧
      (fusionAnswer d).2 * d < 2 ^ 64 := by decide
  intro d hd
  obtain ⟨h1, h2, h3, h4⟩ := key d ((mem_fusionSizes_iff d).2 hd)
  exact ⟨DetermineSizes_of_le h1 (by simp) hf, h2, h3, h4⟩

/-- A returned `workGroupSize` is within the maximum, for any amount of fuel. -/
theorem DetermineSizes_ret_le (fuel length wgs nt : Nat)
    (h : DetermineSizes fuel length = .ret (wgs, nt)) : wgs ≤ MAX_WORK_GROUP_SIZE := by
  unfold DetermineSizes at h
  have h64 : MAX_WORK_GROUP_SIZE ≥ 64 := by decide
  simp only [h64, not_true_eq_false, if_false] at h
  by_cases h1 : length = 1
  · simp only [h1, if_true, Outcome.ret.injEq, Prod.mk.injEq] at h
    rw [← h.1]
    decide
  · simp only [h1, if_false] at h
    cases hfl : factorLoop fuel baseRadix length PrimeMap.empty with
    | ret a =>
      obtain ⟨l, pf⟩ := a
      rw [hfl] at h
      simp only [Outcome.andThen_ret] at h
      by_cases hl : l = 1
      · simp only [hl, ne_eq, not_true_eq_false, if_false] at h
        cases hbs : branchSizes fuel pf length with
        | ret r =>
          rw [hbs] at h
          simp only [Outcome.andThen_ret, finalCheck] at h
          by_cases hr : r.1 ≤ MAX_WORK_GROUP_SIZE
          · simp only [hr, if_true, Outcome.ret.injEq] at h
            rw [h] at hr
            exact hr
          · simp [hr] at h
        | abort f => rw [hbs] at h; simp at h
        | timeout => rw [hbs] at h; simp at h
      · simp [hl] at h
    | abort f => rw [hfl] at h; simp at h
    | timeout => rw [hfl] at h; simp at h

/-- Whatever `Single2DSizes` returns is the list of the candidates that pass
both tests, in the order of the visits. -/
theorem Single2DSizes_eq_filter (b : Nat) (precision : rocfft_precision) (p : Provider)
    (out : List (Nat × Nat)) (h : Single2DSizes b precision p = .ret out) :
    out = candidates.filter
      (accepts (realSize precision) (2 * realSize precision) (clampLds b) p) := by
  rw [Single2DSizes, enumerate2D_eq] at h
  simpa using foldOutcome_add_filter _ _ _ _ _ _ _ h

/-- With a well-behaved provider the thread count of every candidate pair is
computed without a division by zero. -/
theorem Get2DSingleThreadCount_candidate (p : Provider) (wgs nt : Nat → Nat)
    (hp : ∀ d, InFusionFamily d →
      p d = .ret (wgs d, nt d) ∧ 0 < wgs d ∧ wgs d ≤ nt d * d ∧ nt d * d < 2 ^ 64)
    (i j : Nat) (hi : i ∈ fusionSizes) (hj : j ∈ fusionSizes) :
    Get2DSingleThreadCount i j p =
      .ret (max (i * j / (nt i * i / wgs i)) (i * j / (nt j * j / wgs j))) := by
  obtain ⟨pi, wi, ni, bi⟩ := hp i ((mem_fusionSizes_iff i).1 hi)
  obtain ⟨pj, wj, nj, bj⟩ := hp j ((mem_fusionSizes_iff j).1 hj)
  exact Get2DSingleThreadCount_eq i j p _ _ _ _ pi pj wi wj ni nj bi bj
    (memory_no_wrap i j 0 (fusionSizes_le i hi) (fusionSizes_le j hj) (by omega)).2

/-- In the composite branch a normal return requires the second check to pass. -/
theorem DetermineSizes_composite_dvd (fuel length : Nat) (h0 : 0 < length) (h1 : length ≠ 1)
    (hb : length < 2 ^ 64) (hf : length ≤ fuel) (hs : Supported length) (pf : PrimeMap)
    (hpf : factorLoop fuel baseRadix length PrimeMap.empty = .ret (1, pf))
    (hnp : ∀ r ∈ baseRadix, pf r ≠ length) (res : Nat × Nat)
    (hD : DetermineSizes fuel length = .ret res) : (selectFamily pf length).1 ∣ length := by
  obtain ⟨pf1, hpf1, -, heq⟩ := DetermineSizes_supported_eq fuel length h0 h1 hf hb hs
  have hpfeq : pf1 = pf := by
    rw [hpf] at hpf1
    simp only [Outcome.ret.injEq, Prod.mk.injEq, true_and] at hpf1
    exact hpf1.symm
  subst hpfeq
  by_contra hd
  rcases branchSizes_cases fuel pf1 length h0 with ⟨hpure, -⟩ | ⟨-, hcomp⟩
  · rcases hpure with h | h | h | h | h | h
    · exact hnp 2 (by decide) h
    · exact hnp 3 (by decide) h
    · exact hnp 5 (by decide) h
    · exact hnp 7 (by decide) h
    · exact hnp 11 (by decide) h
    · exact hnp 13 (by decide) h
  · rw [heq, hcomp, compositeSizes_abort fuel pf1 length hd] at hD
    simp at hD

/-! ## Whole numbers of elements per work item -/

theorem wholeItems_of_dvd {length wgs nt : Nat} (hl : 0 < length) (hw : 0 < wgs)
    (hn : 1 ≤ nt) (hd : wgs ∣ nt * length) : WholeItems length wgs nt :=
  ⟨hw, hn, hd, Nat.div_pos (Nat.le_of_dvd (Nat.mul_pos hn hl) hd) hw⟩

/-- The pure prime-power rule, for the work-group size `p ^ b`. -/
theorem primePowerSizes_whole (p b a : Nat) (hp : 2 ≤ p) (r : Nat × Nat)
    (h : primePowerSizes p (p ^ b) (p ^ a) = .ret r) : WholeItems (p ^ a) r.1 r.2 := by
  have hpa : 0 < p ^ a := pow_pos (by omega) a
  have hpb : 0 < p ^ b := pow_pos (by omega) b
  have hne : p ^ a ≠ 0 := by omega
  have hmul : p * p ^ b = p ^ (b + 1) := by rw [pow_succ]; ring
  unfold primePowerSizes at h
  rw [hmul] at h
  by_cases hc : p ^ a ≥ p ^ (b + 1)
  · simp only [hc, if_true, Outcome.ret.injEq] at h
    subst h
    have hle : b + 1 ≤ a := (Nat.pow_le_pow_iff_right (by omega)).1 hc
    exact wholeItems_of_dvd hpa hpb (le_refl 1)
      (by rw [one_mul]; exact pow_dvd_pow p (by omega))
  · simp only [hc, if_false, hne, Outcome.ret.injEq] at h
    subst h
    have hp1 : 1 < p := by omega
    have hlt : a < b + 1 := (Nat.pow_lt_pow_iff_right hp1).1 (Nat.lt_of_not_ge hc)
    have hdvd : p ^ a ∣ p ^ (b + 1) := pow_dvd_pow p (by omega)
    have hcancel : p ^ (b + 1) / p ^ a * p ^ a = p ^ (b + 1) := Nat.div_mul_cancel hdvd
    have hnt : 1 ≤ p ^ (b + 1) / p ^ a := Nat.div_pos (Nat.le_of_lt (Nat.lt_of_not_ge hc)) hpa
    refine wholeItems_of_dvd hpa hpb hnt ?_
    show p ^ b ∣ p ^ (b + 1) / p ^ a * p ^ a
    rw [hcancel]
    exact pow_dvd_pow p (by omega)

/-- The pure power-of-two rule. -/
theorem pow2Branch_whole (a : Nat) (ha : 2 ^ a ≠ 1) (r : Nat × Nat)
    (h : (if 2 ^ a ≥ 1024 then
        Outcome.ret (if MAX_WORK_GROUP_SIZE ≥ 256 then 256 else MAX_WORK_GROUP_SIZE, 1)
      else if 2 ^ a = 512 then .ret (64, 1)
      else if 2 ^ a ≥ 16 then .ret (64, 256 / 2 ^ a)
      else if 2 ^ a = 0 then .abort .divideByZero
      else .ret (64, 128 / 2 ^ a)) = .ret r) : WholeItems (2 ^ a) r.1 r.2 := by
  rcases Nat.lt_or_ge a 10 with hlt | hge
  · interval_cases a
    · exact absurd rfl ha
    all_goals
      simp only [MAX_WORK_GROUP_SIZE] at h
      norm_num at h
      subst h
      refine wholeItems_of_dvd (by norm_num) (by norm_num) (by norm_num) ?_
      norm_num
  · have hbig : 2 ^ 10 ≤ 2 ^ a := Nat.pow_le_pow_right (by decide) hge
    have h1024 : 2 ^ a ≥ 1024 := by norm_num at hbig; exact hbig
    simp only [h1024, if_true, MAX_WORK_GROUP_SIZE, Outcome.ret.injEq] at h
    norm_num at h
    subst h
    refine wholeItems_of_dvd (by positivity) (by norm_num) (by norm_num) ?_
    show 256 ∣ 1 * 2 ^ a
    rw [one_mul]
    exact (show 256 = 2 ^ 8 by norm_num) ▸ pow_dvd_pow 2 (by omega)

/-- The composite branch: the quotient is the finalized `leastNumPerWI`. -/
theorem composite_quotient {length m nt : Nat} (h0 : 0 < length) (hm : 0 < m)
    (hd : m ∣ length) (hnt : 0 < nt) :
    nt * (length / m) ∣ nt * length ∧ nt * length / (nt * (length / m)) = m := by
  obtain ⟨q, rfl⟩ := hd
  have hq : 0 < q := Nat.pos_of_mul_pos_left h0
  have hdiv : m * q / m = q := Nat.mul_div_cancel_left q hm
  rw [hdiv]
  refine ⟨Nat.mul_dvd_mul_left nt (Dvd.intro_left m rfl), ?_⟩
  rw [Nat.mul_div_mul_left _ _ hnt]
  exact Nat.mul_div_cancel m hq

/-- Every branch result gives each work item a whole, non-zero number of
elements. -/
theorem branchSizes_whole (fuel : Nat) (pf : PrimeMap) (length : Nat)
    (hF : Factored length 1 pf) (h0 : 0 < length) (h1 : length ≠ 1) (hb : length < 2 ^ 64)
    (hf : length ≤ fuel) (r : Nat × Nat) (h : branchSizes fuel pf length = .ret r) :
    WholeItems length r.1 r.2 := by
  obtain ⟨a2, a3, a5, a7, a11, a13, e2, e3, e5, e7, e11, e13, -, -⟩ := hF
  unfold branchSizes at h
  by_cases c2 : pf 2 = length
  · simp only [c2, if_true] at h
    have hl : length = 2 ^ a2 := by rw [← c2, e2]
    subst hl
    exact pow2Branch_whole a2 h1 r h
  by_cases c3 : pf 3 = length
  · simp only [c2, c3, if_true, if_false] at h
    have hl : length = 3 ^ a3 := by rw [← c3, e3]
    subst hl
    exact primePowerSizes_whole 3 5 a3 (by decide) r h
  by_cases c5 : pf 5 = length
  · simp only [c2, c3, c5, if_true, if_false] at h
    have hl : length = 5 ^ a5 := by rw [← c5, e5]
    subst hl
    exact primePowerSizes_whole 5 3 a5 (by decide) r h
  by_cases c7 : pf 7 = length
  · simp only [c2, c3, c5, c7, if_true, if_false] at h
    have hl : length = 7 ^ a7 := by rw [← c7, e7]
    subst hl
    exact primePowerSizes_whole 7 2 a7 (by decide) r h
  by_cases c11 : pf 11 = length
  · simp only [c2, c3, c5, c7, c11, if_true, if_false] at h
    have hl : length = 11 ^ a11 := by rw [← c11, e11]
    subst hl
    exact primePowerSizes_whole 11 2 a11 (by decide) r h
  by_cases c13 : pf 13 = length
  · simp only [c2, c3, c5, c7, c11, c13, if_true, if_false] at h
    have hl : length = 13 ^ a13 := by rw [← c13, e13]
    subst hl
    exact primePowerSizes_whole 13 2 a13 (by decide) r h
  simp only [c2, c3, c5, c7, c11, c13, if_false] at h
  by_cases hd : (selectFamily pf length).1 ∣ length
  · obtain ⟨m, hm, hret, hqpos, -⟩ := compositeSizes_ret fuel pf length h0 hb hf hd
    rw [hret] at h
    simp only [Outcome.ret.injEq] at h
    subst h
    have hnt : 0 < max 1 ((selectFamily pf length).2 / (length / m)) :=
      lt_of_lt_of_le Nat.one_pos (le_max_left _ _)
    exact wholeItems_of_dvd h0 (Nat.mul_pos hnt hqpos) hnt
      (composite_quotient h0 hm.1 hm.2.2.1 hnt).1
  · rw [compositeSizes_abort fuel pf length hd] at h
    simp at h

/-- Every result of `DetermineSizes` gives each work item a whole, non-zero
number of elements, whatever the amount of fuel. -/
theorem DetermineSizes_whole (fuel length wgs nt : Nat) (h0 : 1 ≤ length)
    (hb : length < 2 ^ 64) (h : DetermineSizes fuel length = .ret (wgs, nt)) :
    WholeItems length wgs nt := by
  have hbig := DetermineSizes_of_le h (by simp) (Nat.le_add_right fuel length)
  by_cases h1 : length = 1
  · subst h1
    simp only [DetermineSizes, MAX_WORK_GROUP_SIZE, ge_iff_le, if_true, Outcome.ret.injEq,
      Prod.mk.injEq] at hbig
    norm_num at hbig
    obtain ⟨rfl, rfl⟩ := hbig
    exact wholeItems_of_dvd (by decide) (by decide) (by decide) (by decide)
  · obtain ⟨l, pf, -, hfac, heq⟩ :=
      DetermineSizes_eq (fuel + length) length h0 h1 (by omega) hb
    rw [heq] at hbig
    by_cases hl : l = 1
    · subst hl
      simp only [ne_eq, not_true_eq_false, if_false] at hbig
      cases hbs : branchSizes (fuel + length) pf length with
      | ret r =>
        rw [hbs] at hbig
        simp only [Outcome.andThen_ret, finalCheck] at hbig
        by_cases hr : r.1 ≤ MAX_WORK_GROUP_SIZE
        · simp only [hr, if_true, Outcome.ret.injEq] at hbig
          have hw := branchSizes_whole (fuel + length) pf length hfac h0 h1 hb (by omega) r hbs
          rw [hbig] at hw
          exact hw
        · simp [hr] at hbig
      | abort f => rw [hbs] at hbig; simp at hbig
      | timeout => rw [hbs] at hbig; simp at hbig
    · simp [hl] at hbig

/-! ## Symmetry, monotonicity and duplicates of the enumeration -/

theorem Outcome.andThen_eq_ret {α β : Type} {x : Outcome α} {k : α → Outcome β} {b : β}
    (h : x.andThen k = .ret b) : ∃ a, x = .ret a ∧ k a = .ret b := by
  cases x with
  | ret a => exact ⟨a, rfl, h⟩
  | abort f => simp at h
  | timeout => simp at h

/-- Swapping the two lengths does not change a thread count that is computed
normally. -/
theorem Get2DSingleThreadCount_comm (i j : Nat) (p : Provider) (t : Nat)
    (h : Get2DSingleThreadCount i j p = .ret t) : Get2DSingleThreadCount j i p = .ret t := by
  unfold Get2DSingleThreadCount at h ⊢
  obtain ⟨a, ha, h⟩ := Outcome.andThen_eq_ret h
  obtain ⟨b, hb, h⟩ := Outcome.andThen_eq_ret h
  rw [hb, ha]
  simp only [Outcome.andThen_ret] at h ⊢
  by_cases z0 : a.1 = 0
  · simp [z0] at h
  by_cases z1 : b.1 = 0
  · simp [z0, z1] at h
  by_cases c0 : wrap (a.2 * i) / a.1 = 0
  · simp [z0, z1, c0] at h
  by_cases c1 : wrap (b.2 * j) / b.1 = 0
  · simp [z0, z1, c0, c1] at h
  simp only [z0, z1, c0, c1, if_false, Outcome.ret.injEq] at h ⊢
  rw [Nat.mul_comm j i, max_comm]
  exact h

theorem accepts_comm (real elem lds : Nat) (p : Provider) (i j : Nat) :
    accepts real elem lds p (i, j) = accepts real elem lds p (j, i) := by
  unfold accepts
  simp only
  rw [Nat.mul_comm j i]
  congr 1
  cases h1 : Get2DSingleThreadCount i j p with
  | ret t => rw [Get2DSingleThreadCount_comm i j p t h1]
  | abort f =>
    cases h2 : Get2DSingleThreadCount j i p with
    | ret t => rw [Get2DSingleThreadCount_comm j i p t h2] at h1; simp at h1
    | abort g => rfl
    | timeout => rfl
  | timeout =>
    cases h2 : Get2DSingleThreadCount j i p with
    | ret t => rw [Get2DSingleThreadCount_comm j i p t h2] at h1; simp at h1
    | abort g => rfl
    | timeout => rfl

theorem accepts_mono (real elem lds1 lds2 : Nat) (hle : lds1 ≤ lds2) (p : Provider)
    (x : Nat × Nat) (h : accepts real elem lds1 p x = true) :
    accepts real elem lds2 p x = true := by
  unfold accepts at h ⊢
  simp only [Bool.and_eq_true, decide_eq_true_eq] at h ⊢
  exact ⟨le_trans h.1 hle, h.2⟩

/-- If the enumeration returns for a budget it returns for every smaller one:
the smaller budget asks the provider about fewer pairs. -/
theorem foldOutcome_add_returns_of_le (real elem lds1 lds2 : Nat) (hle : lds1 ≤ lds2)
    (p : Provider) :
    ∀ (cs r1 r2 out2 : List (Nat × Nat)),
      foldOutcome (fun x retval => Add2DSingleSize x.1 x.2 real elem lds2 p retval) cs r2
        = .ret out2 →
      ∃ out1, foldOutcome (fun x retval => Add2DSingleSize x.1 x.2 real elem lds1 p retval)
        cs r1 = .ret out1 := by
  intro cs
  induction cs with
  | nil => intro r1 r2 out2 _; exact ⟨r1, rfl⟩
  | cons x rest ih =>
    intro r1 r2 out2 h
    obtain ⟨i, j⟩ := x
    have h2 : (Add2DSingleSize i j real elem lds2 p r2).andThen
        (foldOutcome (fun x retval => Add2DSingleSize x.1 x.2 real elem lds2 p retval) rest)
        = .ret out2 := h
    obtain ⟨s2, hs2, hrest⟩ := Outcome.andThen_eq_ret h2
    show ∃ out1, (Add2DSingleSize i j real elem lds1 p r1).andThen
        (foldOutcome (fun x retval => Add2DSingleSize x.1 x.2 real elem lds1 p retval) rest)
        = .ret out1
    by_cases hm : wrap (wrap (wrap (i * j) * elem) + wrap (wrap (i * j) * real)) ≤ lds1
    · have hm2 : wrap (wrap (wrap (i * j) * elem) + wrap (wrap (i * j) * real)) ≤ lds2 :=
        le_trans hm hle
      unfold Add2DSingleSize at hs2 ⊢
      simp only [hm2, if_true] at hs2
      obtain ⟨t, ht, -⟩ := Outcome.andThen_eq_ret hs2
      simp only [hm, if_true, ht, Outcome.andThen_ret]
      split_ifs
      · exact ih _ _ _ hrest
      · exact ih _ _ _ hrest
    · unfold Add2DSingleSize
      simp only [hm, if_false, Outcome.andThen_ret]
      exact ih _ _ _ hrest

theorem clampLds_mono (b1 b2 : Nat) (h0 : 0 < b1) (hle : b1 ≤ b2) :
    clampLds b1 ≤ clampLds b2 := by
  unfold clampLds MAX_LDS_SIZE_BYTES
  have n1 : b1 ≠ 0 := by omega
  have n2 : b2 ≠ 0 := by omega
  simp only [n1, n2, if_false]
  omega

theorem clampLds_le_zero (b : Nat) : clampLds b ≤ clampLds 0 := by
  unfold clampLds MAX_LDS_SIZE_BYTES
  by_cases h : b = 0
  · simp [h]
  · simp only [h, if_false, if_true]
    omega

/-- The enumeration for a smaller effective budget returns whenever the one for
the larger budget does, and its output is a sublist. -/
theorem Single2DSizes_sublist (precision : rocfft_precision) (p : Provider) (b1 b2 : Nat)
    (hle : clampLds b1 ≤ clampLds b2) (out2 : List (Nat × Nat))
    (h2 : Single2DSizes b2 precision p = .ret out2) :
    ∃ out1, Single2DSizes b1 precision p = .ret out1 ∧ out1.Sublist out2 := by
  have hf2 := Single2DSizes_eq_filter b2 precision p out2 h2
  rw [Single2DSizes, enumerate2D_eq] at h2
  obtain ⟨out1, h1⟩ := foldOutcome_add_returns_of_le (realSize precision)
    (2 * realSize precision) (clampLds b1) (clampLds b2) hle p candidates [] [] out2 h2
  have h1' : Single2DSizes b1 precision p = .ret out1 := by
    rw [Single2DSizes, enumerate2D_eq]; exact h1
  refine ⟨out1, h1', ?_⟩
  rw [Single2DSizes_eq_filter b1 precision p out1 h1', hf2]
  exact List.monotone_filter_right candidates
    (fun x hx => accepts_mono _ _ _ _ hle p x hx)

theorem candidates_nodup : candidates.Nodup := by decide!

theorem candidates_length : candidates.length = 256 := by decide!

/-! ## Termination -/

/-- For the remaining value 0 the division loop never stops. -/
theorem stripRadix_zero (rad : Nat) (hrad : rad ≠ 0) :
    ∀ (fuel e : Nat), stripRadix fuel rad 0 e = .timeout := by
  intro fuel
  induction fuel with
  | zero => intro e; rfl
  | succ fuel ih =>
    intro e
    unfold stripRadix
    simp only [hrad, if_false, Nat.zero_mod, if_true, Nat.zero_div]
    exact ih _

theorem DetermineSizes_zero (fuel : Nat) : DetermineSizes fuel 0 = .timeout := by
  have h64 : MAX_WORK_GROUP_SIZE ≥ 64 := by decide
  simp only [DetermineSizes, h64, not_true_eq_false, if_false, baseRadix, factorLoop,
    stripRadix_zero 13 (by decide) fuel 1, Outcome.andThen_timeout]
  rfl

theorem DetermineSizes_ne_timeout (fuel length : Nat) (h0 : 1 ≤ length) (hb : length < 2 ^ 64)
    (hf : length ≤ fuel) : DetermineSizes fuel length ≠ .timeout := by
  rcases DetermineSizes_outcomes fuel length h0 hf hb with ⟨r, hr⟩ | hr | hr <;>
    (rw [hr]; simp)

/-! ## The claims about `DetermineSizes` -/

/-- C1, counterexample: `33 = 3 * 11` is composed of supported primes only, yet
`DetermineSizes` stops at the assertion that `leastNumPerWI` divides the length
(the fallback value `210` does not divide `33`). -/
theorem DetermineSizes_33_fails :
    0 < 33 ∧ Supported 33 ∧ DetermineSizes 33 33 = .abort .leastNumPerWI := by
  refine ⟨by decide, ?_, by decide⟩
  have h := supported_smooth 0 1 0 0 1 0
  norm_num at h
  exact h

/-- C1, amended: for every positive length composed of supported primes only,
with enough fuel, `DetermineSizes` returns normally with
`workGroupSize ≤ MAX_WORK_GROUP_SIZE` when the length is `Tuned` (no prime 11
or 13, or no prime besides 2 and 11, or no prime besides 2 and 13, or a
multiple of 210), and otherwise stops at the assertion that `leastNumPerWI`
divides the length.  In particular a length that reaches the composite branch
and matches none of the twelve tuned families gets the fallback `(210, 12)`
and returns normally exactly when 210 divides it. -/
theorem DetermineSizes_supported_lengths (fuel length : Nat) (h0 : 0 < length)
    (hb : length < 2 ^ 64) (hf : length ≤ fuel) (hs : Supported length) :
    (Tuned length →
      ∃ wgs nt, DetermineSizes fuel length = .ret (wgs, nt) ∧ wgs ≤ MAX_WORK_GROUP_SIZE) ∧
    (¬ Tuned length → DetermineSizes fuel length = .abort .leastNumPerWI) ∧
    (∀ pf, factorLoop fuel baseRadix length PrimeMap.empty = .ret (1, pf) →
      (∀ p ∈ baseRadix, pf p ≠ length) → selectFamily pf length = (210, 12) →
      ((∃ r, DetermineSizes fuel length = .ret r) ↔ 210 ∣ length)) := by
  obtain ⟨hyes, hno⟩ := DetermineSizes_supported_outcome fuel length h0 hf hb hs
  refine ⟨hyes, hno, ?_⟩
  intro pf hpf hnp hfam
  have h1 : length ≠ 1 := by
    rintro rfl
    simp [factorLoop, baseRadix, stripRadix] at hpf
    cases fuel with
    | zero => omega
    | succ n =>
      simp [stripRadix, factorLoop] at hpf
      have := hnp 2 (by simp [baseRadix])
      rw [← hpf] at this
      simp [PrimeMap.set] at this
  obtain ⟨pf1, hpf1, E, -⟩ := DetermineSizes_supported_eq fuel length h0 h1 hf hb hs
  have hpfeq : pf1 = pf := by
    rw [hpf] at hpf1
    simp only [Outcome.ret.injEq, Prod.mk.injEq, true_and] at hpf1
    exact hpf1.symm
  subst hpfeq
  have hiff := E.family_dvd_iff hb (hnp 2 (by simp [baseRadix])) (hnp 3 (by simp [baseRadix]))
    (hnp 5 (by simp [baseRadix])) (hnp 7 (by simp [baseRadix]))
    (hnp 11 (by simp [baseRadix])) (hnp 13 (by simp [baseRadix]))
  rw [hfam] at hiff
  rw [hiff]
  constructor
  · rintro ⟨r, hr⟩
    by_contra ht
    rw [hno ht] at hr
    simp at hr
  · intro ht
    obtain ⟨wgs, nt, h, -⟩ := hyes ht
    exact ⟨_, h⟩

/-- Witness for C1 (amended): `2310 = 2 * 3 * 5 * 7 * 11` takes the fallback and
returns normally. -/
theorem DetermineSizes_supported_lengths_witness :
    0 < 2310 ∧ Supported 2310 ∧ Tuned 2310 ∧
      ∃ wgs nt, DetermineSizes 2310 2310 = .ret (wgs, nt) ∧ wgs ≤ MAX_WORK_GROUP_SIZE := by
  have hs : Supported 2310 := by
    have h := supported_smooth 1 1 1 1 1 0
    norm_num at h
    exact h
  have ht : Tuned 2310 := Or.inr (Or.inr (Or.inr (by decide)))
  exact ⟨by decide, hs, ht,
    (DetermineSizes_supported_lengths 2310 2310 (by decide) (by norm_num) (le_refl _) hs).1 ht⟩

/-- C2: the final assertion of `DetermineSizes` never fails.  For every length
`≥ 1` and any amount of fuel the call does not end in
`assert(workGroupSize <= MAX_WORK_GROUP_SIZE)`; whenever the factorisation
passes the first check and the branch selection returns (so the second check
passed too), the computed `workGroupSize` is at most `MAX_WORK_GROUP_SIZE`; and
so is every returned `workGroupSize`, the one for length 1 included. -/
theorem DetermineSizes_final_assert (fuel length : Nat) (h0 : 1 ≤ length)
    (hb : length < 2 ^ 64) :
    DetermineSizes fuel length ≠ .abort .workGroupSize ∧
    (∀ l pf wgs nt, factorLoop fuel baseRadix length PrimeMap.empty = .ret (l, pf) → l = 1 →
      branchSizes fuel pf length = .ret (wgs, nt) → wgs ≤ MAX_WORK_GROUP_SIZE) ∧
    (∀ wgs nt, DetermineSizes fuel length = .ret (wgs, nt) → wgs ≤ MAX_WORK_GROUP_SIZE) := by
  refine ⟨?_, ?_, fun wgs nt h => DetermineSizes_ret_le fuel length wgs nt h⟩
  · intro h
    have hbig := DetermineSizes_of_le h (by simp) (Nat.le_add_right fuel length)
    rcases DetermineSizes_outcomes (fuel + length) length h0 (by omega) hb with
      ⟨r, hr⟩ | hr | hr
    all_goals (rw [hr] at hbig; simp at hbig)
  · intro l pf wgs nt _ _ h
    exact branchSizes_le fuel pf length h0 hb wgs nt h

/-- Witness for C2: length `12` passes both checks and the computed
`workGroupSize` is `128`. -/
theorem DetermineSizes_final_assert_witness :
    1 ≤ 12 ∧ 12 < 2 ^ 64 ∧ DetermineSizes 12 12 = .ret (128, 128) ∧
      DetermineSizes 12 12 ≠ .abort .workGroupSize ∧ 128 ≤ MAX_WORK_GROUP_SIZE :=
  ⟨by decide, by norm_num, by decide,
    (DetermineSizes_final_assert 12 12 (by decide) (by norm_num)).1,
    (DetermineSizes_final_assert 12 12 (by decide) (by norm_num)).2.2 128 128 (by decide)⟩

/-- C3: for every length `≥ 2` with a prime factor `q` outside
`{2, 3, 5, 7, 11, 13}`, `DetermineSizes` fails the check `assert(l == 1)` as
soon as the fuel suffices, and it returns a pair for no amount of fuel. -/
theorem DetermineSizes_unsupported_prime (length q : Nat) (h2 : 2 ≤ length)
    (hb : length < 2 ^ 64) (hq : q.Prime) (hqd : q ∣ length) (hqn : q ∉ baseRadix) :
    (∀ fuel, length ≤ fuel → DetermineSizes fuel length = .abort .unsupportedLength) ∧
    ∀ fuel r, DetermineSizes fuel length ≠ .ret r := by
  have hs : ¬ Supported length := fun hs => hqn (hs q hq hqd)
  have key : ∀ fuel, length ≤ fuel → DetermineSizes fuel length = .abort .unsupportedLength :=
    fun fuel hf => DetermineSizes_unsupported_eq fuel length (by omega) hf hb hs
  refine ⟨key, ?_⟩
  intro fuel r h
  have hbig := DetermineSizes_of_le h (by simp) (Nat.le_add_right fuel length)
  rw [key (fuel + length) (by omega)] at hbig
  simp at hbig

/-- Witness for C3: length `17`. -/
theorem DetermineSizes_unsupported_prime_witness :
    2 ≤ 17 ∧ Nat.Prime 17 ∧ 17 ∣ 17 ∧ 17 ∉ baseRadix ∧
      (∀ fuel, 17 ≤ fuel → DetermineSizes fuel 17 = .abort .unsupportedLength) ∧
      ∀ fuel r, DetermineSizes fuel 17 ≠ .ret r :=
  ⟨by decide, by norm_num, dvd_refl 17, by decide,
    DetermineSizes_unsupported_prime 17 17 (by decide) (by norm_num) (by norm_num)
      (dvd_refl 17) (by decide)⟩

/-- C7: the composite branch of `DetermineSizes`.  For every supported length
divisible by two distinct primes, with enough fuel, the factorisation returns
with residue `1` and no pure prime-power branch applies; with `(L, M)` the
family's `(leastNumPerWI, maxWorkGroupSize)`, if `L` divides the length then,
for `m` the smallest multiple of `L` that divides the length with
`length / m ≤ 1024`, the result is `numTrans = max 1 (M / (length / m))` and
`workGroupSize = numTrans * (length / m)`, both positive.  Lengths 12, 100 and
200 give `(128, 128)`, `(120, 12)` and `(60, 6)`, with `m = 12` for length 12. -/
theorem DetermineSizes_composite :
    (∀ fuel length p q : Nat, 0 < length → length < 2 ^ 64 → length ≤ fuel →
      Supported length → p.Prime → q.Prime → p ≠ q → p ∣ length → q ∣ length →
      ∃ pf, factorLoop fuel baseRadix length PrimeMap.empty = .ret (1, pf) ∧
        (∀ r ∈ baseRadix, pf r ≠ length) ∧
        ((selectFamily pf length).1 ∣ length →
          ∃ m, IsFinalLnpi length (selectFamily pf length).1 m ∧
            DetermineSizes fuel length =
              .ret (max 1 ((selectFamily pf length).2 / (length / m)) * (length / m),
                max 1 ((selectFamily pf length).2 / (length / m))) ∧
            0 < max 1 ((selectFamily pf length).2 / (length / m)) * (length / m) ∧
            0 < max 1 ((selectFamily pf length).2 / (length / m)))) ∧
    (IsFinalLnpi 12 12 12 ∧ ∀ fuel, 12 ≤ fuel → DetermineSizes fuel 12 = .ret (128, 128)) ∧
    (∀ fuel, 100 ≤ fuel → DetermineSizes fuel 100 = .ret (120, 12)) ∧
    (∀ fuel, 200 ≤ fuel → DetermineSizes fuel 200 = .ret (60, 6)) := by
  refine ⟨fun fuel length p q h0 hb hf hs hp hq hpq hpd hqd =>
    DetermineSizes_composite_eq fuel length p q h0 hb hf hs hp hq hpq hpd hqd,
    ⟨isFinalLnpi_self (by decide) (dvd_refl 12) (by decide), ?_⟩, ?_, ?_⟩
  · intro fuel hf
    exact DetermineSizes_of_le (f := 12) (by decide) (by simp) hf
  · intro fuel hf
    exact DetermineSizes_of_le (f := 100) (by decide) (by simp) hf
  · intro fuel hf
    exact DetermineSizes_of_le (f := 200) (by decide) (by simp) hf

/-- Witness for C7: length `12 = 2 ^ 2 * 3`, with the primes 2 and 3. -/
theorem DetermineSizes_composite_witness :
    0 < 12 ∧ Supported 12 ∧ Nat.Prime 2 ∧ Nat.Prime 3 ∧ 2 ∣ 12 ∧ 3 ∣ 12 ∧
      ∃ pf, factorLoop 12 baseRadix 12 PrimeMap.empty = .ret (1, pf) ∧
        (∀ r ∈ baseRadix, pf r ≠ 12) ∧
        ((selectFamily pf 12).1 ∣ 12 →
          ∃ m, IsFinalLnpi 12 (selectFamily pf 12).1 m ∧
            DetermineSizes 12 12 =
              .ret (max 1 ((selectFamily pf 12).2 / (12 / m)) * (12 / m),
                max 1 ((selectFamily pf 12).2 / (12 / m))) ∧
            0 < max 1 ((selectFamily pf 12).2 / (12 / m)) * (12 / m) ∧
            0 < max 1 ((selectFamily pf 12).2 / (12 / m))) := by
  have hs : Supported 12 := by
    have h := supported_smooth 2 1 0 0 0 0
    norm_num at h
    exact h
  exact ⟨by decide, hs, Nat.prime_two, Nat.prime_three, by decide, by decide,
    DetermineSizes_composite.1 12 12 2 3 (by decide) (by norm_num) (le_refl _) hs
      Nat.prime_two Nat.prime_three (by decide) (by decide) (by decide)⟩

/-- C8: the pure power-of-two rule.  For every length `2 ^ k` with `k ≥ 1`, with
enough fuel, the result is `(256, 1)` if `length ≥ 1024`, `(64, 1)` if
`length = 512`, `(64, 256 / length)` if `16 ≤ length ≤ 256` and
`(64, 128 / length)` if `length` is 2, 4 or 8; these cases cover all such
lengths. -/
theorem DetermineSizes_pow2 (fuel k : Nat) (hk : 1 ≤ k) (hb : 2 ^ k < 2 ^ 64)
    (hf : 2 ^ k ≤ fuel) :
    (1024 ≤ 2 ^ k → DetermineSizes fuel (2 ^ k) = .ret (256, 1)) ∧
    (2 ^ k = 512 → DetermineSizes fuel (2 ^ k) = .ret (64, 1)) ∧
    (16 ≤ 2 ^ k ∧ 2 ^ k ≤ 256 → DetermineSizes fuel (2 ^ k) = .ret (64, 256 / 2 ^ k)) ∧
    (2 ^ k = 2 ∨ 2 ^ k = 4 ∨ 2 ^ k = 8 →
      DetermineSizes fuel (2 ^ k) = .ret (64, 128 / 2 ^ k)) ∧
    (1024 ≤ 2 ^ k ∨ 2 ^ k = 512 ∨ (16 ≤ 2 ^ k ∧ 2 ^ k ≤ 256) ∨
      2 ^ k = 2 ∨ 2 ^ k = 4 ∨ 2 ^ k = 8) := by
  obtain ⟨pf, heq, e2, -, h2⟩ := DetermineSizes_prime_pow fuel 2 k (by decide) hk hf hb
  have cover : 1024 ≤ 2 ^ k ∨ 2 ^ k = 512 ∨ (16 ≤ 2 ^ k ∧ 2 ^ k ≤ 256) ∨
      2 ^ k = 2 ∨ 2 ^ k = 4 ∨ 2 ^ k = 8 := by
    rcases Nat.lt_or_ge k 10 with hlt | hge
    · interval_cases k <;> simp
    · left
      calc 1024 = 2 ^ 10 := by norm_num
        _ ≤ 2 ^ k := Nat.pow_le_pow_right (by decide) hge
  rw [heq]
  generalize 2 ^ k = n at *
  have hne : n ≠ 0 := by omega
  refine ⟨?_, ?_, ?_, ?_, cover⟩
  · intro h
    simp [branchSizes, e2, h, finalCheck, MAX_WORK_GROUP_SIZE]
  · intro h
    subst h
    simp [branchSizes, e2, finalCheck, MAX_WORK_GROUP_SIZE]
  · rintro ⟨h16, h256⟩
    have h1 : ¬ 1024 ≤ n := by omega
    have h5 : n ≠ 512 := by omega
    simp [branchSizes, e2, h1, h5, h16, finalCheck, MAX_WORK_GROUP_SIZE]
  · intro h
    have h1 : ¬ 1024 ≤ n := by omega
    have h5 : n ≠ 512 := by omega
    have h16 : ¬ 16 ≤ n := by omega
    simp [branchSizes, e2, h1, h5, h16, hne, finalCheck, MAX_WORK_GROUP_SIZE]

/-- Witness for C8: length `1024 = 2 ^ 10` gives `(256, 1)`. -/
theorem DetermineSizes_pow2_witness :
    1 ≤ 10 ∧ 2 ^ 10 < 2 ^ 64 ∧ 1024 ≤ 2 ^ 10 ∧
      DetermineSizes 1024 (2 ^ 10) = .ret (256, 1) :=
  ⟨by decide, by norm_num, by norm_num,
    (DetermineSizes_pow2 1024 10 (by decide) (by norm_num) (by norm_num)).1 (by norm_num)⟩

/-- C9: the pure odd-prime-power rule.  For every `p` among 3, 5, 7, 11, 13 and
every length `p ^ k` with `k ≥ 1`, with enough fuel, the returned
`workGroupSize` is the fixed `W_p` (243, 125, 49, 121, 169) and `numTrans` is
`1` if `length ≥ p * W_p`, otherwise `(p * W_p) / length`. -/
theorem DetermineSizes_odd_prime_pow (fuel p k : Nat) (hp : p ∈ [3, 5, 7, 11, 13])
    (hk : 1 ≤ k) (hb : p ^ k < 2 ^ 64) (hf : p ^ k ≤ fuel) :
    DetermineSizes fuel (p ^ k) =
      .ret (oddPrimeWorkGroupSize p,
        if p ^ k ≥ p * oddPrimeWorkGroupSize p then 1
        else (p * oddPrimeWorkGroupSize p) / p ^ k) := by
  have hmem : p ∈ baseRadix := by
    simp only [List.mem_cons, List.mem_singleton, List.not_mem_nil, or_false] at hp
    rcases hp with rfl | rfl | rfl | rfl | rfl <;> decide
  obtain ⟨pf, heq, ep, hother, h2⟩ := DetermineSizes_prime_pow fuel p k hmem hk hf hb
  rw [heq]
  have hne : p ^ k ≠ 0 := by omega
  simp only [List.mem_cons, List.mem_singleton, List.not_mem_nil, or_false] at hp
  rcases hp with rfl | rfl | rfl | rfl | rfl
  · have n2 := hother 2 (by decide) (by decide)
    generalize 3 ^ k = n at *
    by_cases hc : 729 ≤ n <;>
      simp [branchSizes, primePowerSizes, oddPrimeWorkGroupSize, finalCheck,
        MAX_WORK_GROUP_SIZE, n2, ep, hc, hne]
  · have n2 := hother 2 (by decide) (by decide)
    have n3 := hother 3 (by decide) (by decide)
    generalize 5 ^ k = n at *
    by_cases hc : 625 ≤ n <;>
      simp [branchSizes, primePowerSizes, oddPrimeWorkGroupSize, finalCheck,
        MAX_WORK_GROUP_SIZE, n2, n3, ep, hc, hne]
  · have n2 := hother 2 (by decide) (by decide)
    have n3 := hother 3 (by decide) (by decide)
    have n5 := hother 5 (by decide) (by decide)
    generalize 7 ^ k = n at *
    by_cases hc : 343 ≤ n <;>
      simp [branchSizes, primePowerSizes, oddPrimeWorkGroupSize, finalCheck,
        MAX_WORK_GROUP_SIZE, n2, n3, n5, ep, hc, hne]
  · have n2 := hother 2 (by decide) (by decide)
    have n3 := hother 3 (by decide) (by decide)
    have n5 := hother 5 (by decide) (by decide)
    have n7 := hother 7 (by decide) (by decide)
    generalize 11 ^ k = n at *
    by_cases hc : 1331 ≤ n <;>
      simp [branchSizes, primePowerSizes, oddPrimeWorkGroupSize, finalCheck,
        MAX_WORK_GROUP_SIZE, n2, n3, n5, n7, ep, hc, hne]
  · have n2 := hother 2 (by decide) (by decide)
    have n3 := hother 3 (by decide) (by decide)
    have n5 := hother 5 (by decide) (by decide)
    have n7 := hother 7 (by decide) (by decide)
    have n11 := hother 11 (by decide) (by decide)
    generalize 13 ^ k = n at *
    by_cases hc : 2197 ≤ n <;>
      simp [branchSizes, primePowerSizes, oddPrimeWorkGroupSize, finalCheck,
        MAX_WORK_GROUP_SIZE, n2, n3, n5, n7, n11, ep, hc, hne]

/-- Witness for C9: length `9 = 3 ^ 2` gives `(243, 81)`. -/
theorem DetermineSizes_odd_prime_pow_witness :
    3 ∈ [3, 5, 7, 11, 13] ∧ 1 ≤ 2 ∧ DetermineSizes 9 (3 ^ 2) = .ret (243, 81) :=
  ⟨by decide, by decide,
    DetermineSizes_odd_prime_pow 9 3 2 (by decide) (by decide) (by norm_num) (by norm_num)⟩

/-! ## The claims about `Single2DSizes` -/

/-- C4, counterexample: the provider that answers `(2, 2 ^ 62 + 1)` (values of
`size_t`) for every length meets the stated conditions (positive values, `numTransforms * d ≥
workGroupSize`), and the pair `(512, 8)` meets the stated membership condition
with exact arithmetic, yet `Single2DSizes` does not list it: in `size_t`
arithmetic `numTransforms * d` wraps around, giving 256 and 4 elements per work
item and a thread count of `1024`. -/
theorem Single2DSizes_overflow_provider :
    2 ^ 62 + 1 < 2 ^ 64 ∧
    (∀ d, InFusionFamily d →
      overflowProvider d = .ret (2, 2 ^ 62 + 1) ∧ 0 < 2 ∧ 0 < 2 ^ 62 + 1 ∧
        2 ≤ (2 ^ 62 + 1) * d) ∧
    InFusionFamily 512 ∧ InFusionFamily 8 ∧
    512 * 8 * (2 * realSize .rocfft_precision_single) +
      512 * 8 * realSize .rocfft_precision_single ≤ clampLds 0 ∧
    max (512 * 8 / ((2 ^ 62 + 1) * 512 / 2)) (512 * 8 / ((2 ^ 62 + 1) * 8 / 2)) < 1024 ∧
    ∃ out, Single2DSizes 0 .rocfft_precision_single overflowProvider = .ret out ∧
      (512, 8) ∉ out := by
  refine ⟨by norm_num, ?_, ?_, ?_, by decide, by decide, ?_⟩
  · intro d hd
    refine ⟨rfl, by decide, by norm_num, ?_⟩
    have : 4 ≤ d := by
      rcases hd with ⟨k, -, h, -⟩ | ⟨k, -, h, -⟩ | ⟨k, -, h, -⟩ <;> omega
    omega
  · exact (mem_fusionSizes_iff 512).1 (by decide)
  · exact (mem_fusionSizes_iff 8).1 (by decide)
  · exact Outcome.exists_of_returns (P := fun out => (512, 8) ∉ out) (by decide!)

/-- C4, amended: soundness and completeness of `Single2DSizes`.  For every
budget, precision and provider that returns, for every `d` in `F`, a positive
`workGroupSize` and a `numTransforms` with `numTransforms * d ≥ workGroupSize`
and `numTransforms * d < 2 ^ 64` (no wrap-around in `size_t`), the call returns
a list, and a pair `(i, j)` is in it if and only if `i` and `j` are in `F`,
`i * j * elementSize + i * j * realSize ≤ B` for the effective budget `B`, and
`max ((i * j) / ((nt i * i) / wgs i)) ((i * j) / ((nt j * j) / wgs j)) < 1024`. -/
theorem Single2DSizes_sound_complete (b : Nat) (precision : rocfft_precision) (p : Provider)
    (wgs nt : Nat → Nat)
    (hp : ∀ d, InFusionFamily d →
      p d = .ret (wgs d, nt d) ∧ 0 < wgs d ∧ wgs d ≤ nt d * d ∧ nt d * d < 2 ^ 64) :
    ∃ out, Single2DSizes b precision p = .ret out ∧
      ∀ i j, (i, j) ∈ out ↔
        InFusionFamily i ∧ InFusionFamily j ∧
        i * j * (2 * realSize precision) + i * j * realSize precision ≤ clampLds b ∧
        max (i * j / (nt i * i / wgs i)) (i * j / (nt j * j / wgs j)) < 1024 := by
  obtain ⟨out, h, -, hmem⟩ := Single2DSizes_spec b precision p wgs nt hp
  exact ⟨out, h, hmem⟩

/-- Witness for C4 (amended): `DetermineSizes` with 729 units of fuel is such a
provider. -/
theorem Single2DSizes_sound_complete_witness :
    ∃ out, Single2DSizes 0 .rocfft_precision_single (DetermineSizes 729) = .ret out ∧
      ∀ i j, (i, j) ∈ out ↔
        InFusionFamily i ∧ InFusionFamily j ∧
        i * j * (2 * realSize .rocfft_precision_single) +
          i * j * realSize .rocfft_precision_single ≤ clampLds 0 ∧
        max (i * j / ((fusionAnswer i).2 * i / (fusionAnswer i).1))
          (i * j / ((fusionAnswer j).2 * j / (fusionAnswer j).1)) < 1024 :=
  Single2DSizes_sound_complete 0 .rocfft_precision_single (DetermineSizes 729)
    (fun d => (fusionAnswer d).1) (fun d => (fusionAnswer d).2)
    (DetermineSizes_fusion 729 (le_refl _))

/-- C5: budget clamping in `Single2DSizes`.  For every precision and provider a
requested budget of `0` gives the same output as `65536`, every budget
`b ≥ 65536` gives the same output as `65536`, and for `0 < b < 65536` the
enumeration runs with `b` itself: whatever it returns is the list of the
candidates that pass the memory test against `b` and the thread-count test. -/
theorem Single2DSizes_budget_clamp (b : Nat) (precision : rocfft_precision) (p : Provider) :
    Single2DSizes 0 precision p = Single2DSizes 65536 precision p ∧
    (65536 ≤ b → Single2DSizes b precision p = Single2DSizes 65536 precision p) ∧
    (0 < b → b < 65536 →
      Single2DSizes b precision p = enumerate2D b precision p ∧
      ∀ out, Single2DSizes b precision p = .ret out →
        out = candidates.filter
          (accepts (realSize precision) (2 * realSize precision) b p)) := by
  refine ⟨rfl, ?_, ?_⟩
  · intro hb
    have h : clampLds b = clampLds 65536 := by
      have e : clampLds 65536 = 65536 := by decide
      rw [e]
      unfold clampLds MAX_LDS_SIZE_BYTES
      have : b ≠ 0 := by omega
      simp only [this, if_false]
      omega
    simp only [Single2DSizes, h]
  · intro h0 hb
    have h : clampLds b = b := by
      unfold clampLds MAX_LDS_SIZE_BYTES
      have : b ≠ 0 := by omega
      simp only [this, if_false]
      omega
    refine ⟨by simp only [Single2DSizes, h], ?_⟩
    intro out hout
    rw [Single2DSizes, h, enumerate2D_eq] at hout
    simpa using foldOutcome_add_filter _ _ _ _ _ _ _ hout

/-- Witness for C5: the budget `1000`. -/
theorem Single2DSizes_budget_clamp_witness :
    0 < 1000 ∧ 1000 < 65536 ∧
      Single2DSizes 1000 .rocfft_precision_single (DetermineSizes 729) =
        enumerate2D 1000 .rocfft_precision_single (DetermineSizes 729) :=
  ⟨by decide, by decide,
    ((Single2DSizes_budget_clamp 1000 .rocfft_precision_single (DetermineSizes 729)).2.2
      (by decide) (by decide)).1⟩

/-- C6, counterexample: with budget 65536, single precision and
`DetermineSizes` as the provider, no amount of fuel makes `Single2DSizes`
return a list that contains `(256, 256)`: the pair needs
`256 * 256 * 8 + 256 * 256 * 4 = 786432` bytes and fails the memory test. -/
theorem Single2DSizes_excludes_256_256 :
    ¬ ∃ fuel out, Single2DSizes 65536 .rocfft_precision_single (DetermineSizes fuel) = .ret out ∧
      (256, 256) ∈ out := by
  rintro ⟨fuel, out, hout, hmem⟩
  rw [Single2DSizes, enumerate2D_eq] at hout
  have hfilter := foldOutcome_add_filter _ _ _ _ _ _ _ hout
  rw [List.nil_append] at hfilter
  rw [hfilter] at hmem
  have hacc := (List.mem_filter.1 hmem).2
  simp only [accepts, Bool.and_eq_true] at hacc
  exact absurd hacc.1 (by decide)

/-- C6, amended: with budget 65536, single precision and `DetermineSizes` as the
provider (with enough fuel), `Single2DSizes` returns a list, and the list does
not include the pair `(256, 256)`. -/
theorem Single2DSizes_65536_single (fuel : Nat) (hf : 729 ≤ fuel) :
    ∃ out, Single2DSizes 65536 .rocfft_precision_single (DetermineSizes fuel) = .ret out ∧
      (256, 256) ∉ out := by
  obtain ⟨out, hout, hfilter, -⟩ := Single2DSizes_spec 65536 .rocfft_precision_single
    (DetermineSizes fuel) (fun d => (fusionAnswer d).1) (fun d => (fusionAnswer d).2)
    (DetermineSizes_fusion fuel hf)
  refine ⟨out, hout, ?_⟩
  intro hmem
  rw [hfilter] at hmem
  have hacc := (List.mem_filter.1 hmem).2
  simp only [accepts, Bool.and_eq_true] at hacc
  exact absurd hacc.1 (by decide)

/-- Witness for C6 (amended): 729 units of fuel. -/
theorem Single2DSizes_65536_single_witness :
    729 ≤ 729 ∧
      ∃ out, Single2DSizes 65536 .rocfft_precision_single (DetermineSizes 729) = .ret out ∧
        (256, 256) ∉ out :=
  ⟨le_refl _, Single2DSizes_65536_single 729 (le_refl _)⟩

/-! ## The claims about the small-size table -/

/-- C10: for every record of the small-size table, the product of its non-zero
radices equals its length, `numPasses` equals the number of its non-zero
radices, and its `workGroupSize` is at most 1024.  The table has twelve
records. -/
theorem GetRecord_invariants :
    GetRecord.length = 12 ∧
    ∀ r ∈ GetRecord,
      r.nonZeroRadices.prod = r.length ∧ r.numPasses = r.nonZeroRadices.length ∧
        r.workGroupSize ≤ MAX_WORK_GROUP_SIZE := by
  decide

/-- C11, counterexample: the first record of the table (length 4096) has the
radix 16, which is not a prime. -/
theorem GetRecord_radix_16 :
    (⟨4096, 256, 1, 3, [16, 16, 16, 0, 0, 0, 0, 0, 0, 0, 0, 0]⟩ : SpecRecord) ∈ GetRecord ∧
      16 ∈ (⟨4096, 256, 1, 3, [16, 16, 16, 0, 0, 0, 0, 0, 0, 0, 0, 0]⟩ :
        SpecRecord).nonZeroRadices ∧
      16 ∉ [2, 3, 5, 7, 11, 13] ∧ ¬ Nat.Prime 16 := by
  refine ⟨by decide, by decide, by decide, by norm_num⟩

/-- C11, amended: every non-zero entry of `radices` of every record of the
small-size table is one of the powers of two 2, 4, 8, 16; the only prime among
the radices is 2. -/
theorem GetRecord_radices :
    (∀ r ∈ GetRecord, ∀ x ∈ r.nonZeroRadices, x ∈ [2, 4, 8, 16]) ∧
    (∀ r ∈ GetRecord, ∀ x ∈ r.nonZeroRadices, Nat.Prime x → x = 2) := by
  have h : ∀ r ∈ GetRecord, ∀ x ∈ r.nonZeroRadices, x ∈ [2, 4, 8, 16] := by decide
  refine ⟨h, ?_⟩
  intro r hr x hx hp
  have hm := h r hr x hx
  simp only [List.mem_cons, List.mem_singleton, List.not_mem_nil, or_false] at hm
  rcases hm with rfl | rfl | rfl | rfl
  · rfl
  · norm_num at hp
  · norm_num at hp
  · norm_num at hp

/-! ## The claims about the block-compute table and the precision helpers -/

/-- C12: `GetBlockComputeTable` is defined exactly on the closed set
`{8, 16, 32, 64, 128, 256, 50, 81, 100, 200}`.  For every entry `(N, bwd, wgs)`
of the table it returns `bwd`, `wgs` and `lds = N * bwd > 0` (for `N = 64`:
`bwd = 16`, `wgs = 128`); the lengths of the entries are those of the set; and
for every `N` outside the set the call ends in `assert(0)`. -/
theorem GetBlockComputeTable_closed :
    (∀ e ∈ blockComputeEntries,
      GetBlockComputeTable e.1 = .ret (e.2.1, e.2.2, e.1 * e.2.1) ∧ 0 < e.1 * e.2.1) ∧
    (∀ N, N ∈ blockComputeLengths ↔ ∃ e ∈ blockComputeEntries, e.1 = N) ∧
    GetBlockComputeTable 64 = .ret (16, 128, 1024) ∧
    (∀ N, N ∉ blockComputeLengths → GetBlockComputeTable N = .abort .blockComputeLength) := by
  refine ⟨by decide, ?_, by decide, ?_⟩
  · intro N
    simp only [blockComputeLengths, blockComputeEntries, List.mem_cons, List.mem_singleton,
      List.not_mem_nil, or_false, exists_eq_or_imp, exists_eq_left]
    tauto
  · intro N hN
    simp only [blockComputeLengths, List.mem_cons, List.mem_singleton, List.not_mem_nil,
      or_false, not_or] at hN
    obtain ⟨h8, h16, h32, h64, h128, h256, h50, h81, h100, h200⟩ := hN
    simp [GetBlockComputeTable, blockComputeCase, h8, h16, h32, h64, h128, h256, h50, h81,
      h100, h200]

/-- C13: `PrecisionWidth` is 1 for single and 2 for double precision, and
`Large1DThreshold` is `4096 / PrecisionWidth`, that is 4096 for single and 2048
for double precision. -/
theorem PrecisionWidth_Large1DThreshold :
    PrecisionWidth .rocfft_precision_single = 1 ∧
    PrecisionWidth .rocfft_precision_double = 2 ∧
    (∀ precision, Large1DThreshold precision = 4096 / PrecisionWidth precision) ∧
    Large1DThreshold .rocfft_precision_single = 4096 ∧
    Large1DThreshold .rocfft_precision_double = 2048 := by
  refine ⟨rfl, rfl, fun _ => rfl, by decide, by decide⟩

/-! ## Further claims about `DetermineSizes` and `Single2DSizes` -/

/-- C14: the thread-feasibility bound is strict.  With `DetermineSizes` as the
provider (with enough fuel), single precision and budget 0, the thread count of
`(64, 64)` is exactly 1024 and that of `(64, 32)` is 512; `(64, 64)` passes the
memory test (`49152 ≤ 65536` bytes) but is absent from the output of
`Single2DSizes`, whereas `(64, 32)` is present. -/
theorem Single2DSizes_strict_thread_bound (fuel : Nat) (hf : 729 ≤ fuel) :
    Get2DSingleThreadCount 64 64 (DetermineSizes fuel) = .ret 1024 ∧
    Get2DSingleThreadCount 64 32 (DetermineSizes fuel) = .ret 512 ∧
    64 * 64 * (2 * realSize .rocfft_precision_single) +
      64 * 64 * realSize .rocfft_precision_single = 49152 ∧
    49152 ≤ clampLds 0 ∧
    ∃ out, Single2DSizes 0 .rocfft_precision_single (DetermineSizes fuel) = .ret out ∧
      (64, 64) ∉ out ∧ (64, 32) ∈ out := by
  have hp := DetermineSizes_fusion fuel hf
  have t64 := Get2DSingleThreadCount_candidate (DetermineSizes fuel)
    (fun d => (fusionAnswer d).1) (fun d => (fusionAnswer d).2) hp 64 64 (by decide) (by decide)
  have t32 := Get2DSingleThreadCount_candidate (DetermineSizes fuel)
    (fun d => (fusionAnswer d).1) (fun d => (fusionAnswer d).2) hp 64 32 (by decide) (by decide)
  obtain ⟨out, hout, -, hmem⟩ := Single2DSizes_spec 0 .rocfft_precision_single
    (DetermineSizes fuel) (fun d => (fusionAnswer d).1) (fun d => (fusionAnswer d).2) hp
  refine ⟨t64.trans (by decide), t32.trans (by decide), by decide, by decide, out, hout, ?_, ?_⟩
  · rw [hmem]
    rintro ⟨-, -, -, h⟩
    revert h
    decide
  · rw [hmem]
    exact ⟨(mem_fusionSizes_iff 64).1 (by decide), (mem_fusionSizes_iff 32).1 (by decide),
      by decide, by decide⟩

/-- Witness for C14: 729 units of fuel. -/
theorem Single2DSizes_strict_thread_bound_witness :
    729 ≤ 729 ∧ Get2DSingleThreadCount 64 64 (DetermineSizes 729) = .ret 1024 ∧
      ∃ out, Single2DSizes 0 .rocfft_precision_single (DetermineSizes 729) = .ret out ∧
        (64, 64) ∉ out ∧ (64, 32) ∈ out :=
  ⟨le_refl _, (Single2DSizes_strict_thread_bound 729 (le_refl _)).1,
    (Single2DSizes_strict_thread_bound 729 (le_refl _)).2.2.2.2⟩

/-- C15, counterexample: `1792 = 2 ^ 8 * 7` belongs to the 2x7 family, whose
`maxWorkGroupSize` is 64, and `DetermineSizes` returns the work-group size 128;
`2730 = 2 * 3 * 5 * 7 * 13` takes the fallback, whose `maxWorkGroupSize` is 12,
and `DetermineSizes` returns the work-group size 13. -/
theorem DetermineSizes_exceeds_family_max :
    1792 = 2 ^ 8 * 7 ^ 1 ∧
    (∃ pf, factorLoop 1792 baseRadix 1792 PrimeMap.empty = .ret (1, pf) ∧
      selectFamily pf 1792 = (14, 64)) ∧
    DetermineSizes 1792 1792 = .ret (128, 1) ∧ ¬ 128 ≤ 64 ∧
    (∃ pf, factorLoop 2730 baseRadix 2730 PrimeMap.empty = .ret (1, pf) ∧
      selectFamily pf 2730 = (210, 12)) ∧
    DetermineSizes 2730 2730 = .ret (13, 1) ∧ ¬ 13 ≤ 12 := by
  refine ⟨by norm_num, ?_, by decide!, by decide, ?_, by decide!, by decide⟩
  · obtain ⟨⟨l, pf⟩, h, hl, hfam⟩ := Outcome.exists_of_returns
      (x := factorLoop 1792 baseRadix 1792 PrimeMap.empty)
      (P := fun r => r.1 = 1 ∧ selectFamily r.2 1792 = (14, 64)) (by decide!)
    simp only at hl
    subst hl
    exact ⟨pf, h, hfam⟩
  · obtain ⟨⟨l, pf⟩, h, hl, hfam⟩ := Outcome.exists_of_returns
      (x := factorLoop 2730 baseRadix 2730 PrimeMap.empty)
      (P := fun r => r.1 = 1 ∧ selectFamily r.2 2730 = (210, 12)) (by decide!)
    simp only at hl
    subst hl
    exact ⟨pf, h, hfam⟩

/-- C15, amended: in the composite branch `maxWorkGroupSize` is the desired
work-group size.  For every supported length divisible by two distinct primes
on which `DetermineSizes` returns `(workGroupSize, numTrans)`, with `(L, M)`
the family's `(leastNumPerWI, maxWorkGroupSize)` and `m` the finalized
`leastNumPerWI`: if `length / m ≤ M` then `workGroupSize ≤ M`; otherwise
`numTrans = 1` and `workGroupSize = length / m`, which exceeds `M`; in both
cases `workGroupSize ≤ 1024`. -/
theorem DetermineSizes_composite_bound (fuel length p q : Nat) (h0 : 0 < length)
    (hb : length < 2 ^ 64) (hf : length ≤ fuel) (hs : Supported length) (hp : p.Prime)
    (hq : q.Prime) (hpq : p ≠ q) (hpd : p ∣ length) (hqd : q ∣ length) :
    ∃ pf, factorLoop fuel baseRadix length PrimeMap.empty = .ret (1, pf) ∧
      ∀ wgs nt, DetermineSizes fuel length = .ret (wgs, nt) →
        ∃ m, IsFinalLnpi length (selectFamily pf length).1 m ∧
          (length / m ≤ (selectFamily pf length).2 → wgs ≤ (selectFamily pf length).2) ∧
          ((selectFamily pf length).2 < length / m → nt = 1 ∧ wgs = length / m) ∧
          wgs ≤ MAX_WORK_GROUP_SIZE := by
  have h1 : length ≠ 1 := by
    rintro rfl
    have := Nat.le_of_dvd (by decide) hpd
    have := hp.two_le
    omega
  obtain ⟨pf, hpf, hnp, himp⟩ :=
    DetermineSizes_composite_eq fuel length p q h0 hb hf hs hp hq hpq hpd hqd
  refine ⟨pf, hpf, ?_⟩
  intro wgs nt hD
  have hd := DetermineSizes_composite_dvd fuel length h0 h1 hb hf hs pf hpf hnp _ hD
  obtain ⟨m, hm, hret, -, -⟩ := himp hd
  rw [hret] at hD
  simp only [Outcome.ret.injEq, Prod.mk.injEq] at hD
  obtain ⟨hw, hn⟩ := hD
  have hqpos : 0 < length / m :=
    Nat.div_pos (Nat.le_of_dvd h0 hm.2.2.1) hm.1
  have hq1024 : length / m ≤ 1024 := hm.2.2.2.1
  obtain ⟨-, -, hM⟩ := selectFamily_bounds pf length
  refine ⟨m, hm, ?_, ?_, ?_⟩
  · intro hle
    have hge : 1 ≤ (selectFamily pf length).2 / (length / m) :=
      (Nat.one_le_div_iff hqpos).2 hle
    rw [max_eq_right hge] at hw
    rw [← hw]
    exact Nat.div_mul_le_self _ _
  · intro hlt
    have hz : (selectFamily pf length).2 / (length / m) = 0 := Nat.div_eq_of_lt hlt
    rw [hz] at hw hn
    simp only [Nat.zero_le, max_eq_left, one_mul] at hw hn
    exact ⟨hn.symm, hw.symm⟩
  · rcases Nat.lt_or_ge ((selectFamily pf length).2 / (length / m)) 1 with hlt | hge
    · rw [max_eq_left (by omega)] at hw
      unfold MAX_WORK_GROUP_SIZE
      omega
    · rw [max_eq_right hge] at hw
      have := Nat.div_mul_le_self (selectFamily pf length).2 (length / m)
      unfold MAX_WORK_GROUP_SIZE
      omega

/-- Witness for C15 (amended): length `1792 = 2 ^ 8 * 7`, with the primes 2 and
7. -/
theorem DetermineSizes_composite_bound_witness :
    0 < 1792 ∧ Supported 1792 ∧ Nat.Prime 2 ∧ Nat.Prime 7 ∧ 2 ∣ 1792 ∧ 7 ∣ 1792 ∧
      DetermineSizes 1792 1792 = .ret (128, 1) ∧
      ∃ pf, factorLoop 1792 baseRadix 1792 PrimeMap.empty = .ret (1, pf) ∧
        ∀ wgs nt, DetermineSizes 1792 1792 = .ret (wgs, nt) →
          ∃ m, IsFinalLnpi 1792 (selectFamily pf 1792).1 m ∧
            (1792 / m ≤ (selectFamily pf 1792).2 → wgs ≤ (selectFamily pf 1792).2) ∧
            ((selectFamily pf 1792).2 < 1792 / m → nt = 1 ∧ wgs = 1792 / m) ∧
            wgs ≤ MAX_WORK_GROUP_SIZE := by
  have hs : Supported 1792 := by
    have h := supported_smooth 8 0 0 1 0 0
    norm_num at h
    exact h
  exact ⟨by decide, hs, Nat.prime_two, prime_seven, by decide, by decide, by decide!,
    DetermineSizes_composite_bound 1792 1792 2 7 (by decide) (by norm_num) (le_refl _) hs
      Nat.prime_two prime_seven (by decide) (by decide) (by decide)⟩

/-- C16: every work item gets a whole, non-zero number of elements.  For every
length `≥ 1` on which `DetermineSizes` returns `(workGroupSize, numTrans)`:
`workGroupSize > 0`, `numTrans ≥ 1`, `workGroupSize` divides `numTrans * length`
and the quotient is at least 1; in the composite branch the quotient is the
finalized `leastNumPerWI`.  Consequently, with `DetermineSizes` as the provider
(with enough fuel), `Get2DSingleThreadCount` is computed without a division by
zero for every candidate pair of `Single2DSizes`. -/
theorem DetermineSizes_whole_work_items :
    (∀ fuel length wgs nt : Nat, 1 ≤ length → length < 2 ^ 64 →
      DetermineSizes fuel length = .ret (wgs, nt) →
      0 < wgs ∧ 1 ≤ nt ∧ wgs ∣ nt * length ∧ 1 ≤ nt * length / wgs) ∧
    (∀ fuel length p q : Nat, 0 < length → length < 2 ^ 64 → length ≤ fuel →
      Supported length → p.Prime → q.Prime → p ≠ q → p ∣ length → q ∣ length →
      ∃ pf, factorLoop fuel baseRadix length PrimeMap.empty = .ret (1, pf) ∧
        ∀ wgs nt, DetermineSizes fuel length = .ret (wgs, nt) →
          ∃ m, IsFinalLnpi length (selectFamily pf length).1 m ∧ nt * length / wgs = m) ∧
    (∀ fuel, 729 ≤ fuel → ∀ i j, (i, j) ∈ candidates →
      ∃ t, Get2DSingleThreadCount i j (DetermineSizes fuel) = .ret t) := by
  refine ⟨fun fuel length wgs nt h0 hb h => DetermineSizes_whole fuel length wgs nt h0 hb h,
    ?_, ?_⟩
  · intro fuel length p q h0 hb hf hs hp hq hpq hpd hqd
    have h1 : length ≠ 1 := by
      rintro rfl
      have := Nat.le_of_dvd (by decide) hpd
      have := hp.two_le
      omega
    obtain ⟨pf, hpf, hnp, himp⟩ :=
      DetermineSizes_composite_eq fuel length p q h0 hb hf hs hp hq hpq hpd hqd
    refine ⟨pf, hpf, ?_⟩
    intro wgs nt hD
    have hd := DetermineSizes_composite_dvd fuel length h0 h1 hb hf hs pf hpf hnp _ hD
    obtain ⟨m, hm, hret, -, hnt⟩ := himp hd
    rw [hret] at hD
    simp only [Outcome.ret.injEq, Prod.mk.injEq] at hD
    obtain ⟨hw, hn⟩ := hD
    refine ⟨m, hm, ?_⟩
    rw [← hw, ← hn]
    exact (composite_quotient h0 hm.1 hm.2.2.1 hnt).2
  · intro fuel hf i j hij
    obtain ⟨hi, hj⟩ := (mem_candidates_iff i j).1 hij
    exact ⟨_, Get2DSingleThreadCount_candidate (DetermineSizes fuel)
      (fun d => (fusionAnswer d).1) (fun d => (fusionAnswer d).2)
      (DetermineSizes_fusion fuel hf) i j hi hj⟩

/-- Witness for C16: length 12 returns `(128, 128)`, and `128 * 12 / 128 = 12`. -/
theorem DetermineSizes_whole_work_items_witness :
    1 ≤ 12 ∧ 12 < 2 ^ 64 ∧ DetermineSizes 12 12 = .ret (128, 128) ∧
      (0 < 128 ∧ 1 ≤ 128 ∧ 128 ∣ 128 * 12 ∧ 1 ≤ 128 * 12 / 128) :=
  ⟨by decide, by norm_num, by decide,
    DetermineSizes_whole_work_items.1 12 12 128 128 (by decide) (by norm_num) (by decide)⟩

/-- C17: the fusion result is symmetric.  For every budget, precision and
provider, whenever `Single2DSizes` returns a list, a pair `(i, j)` occurs in it
if and only if `(j, i)` occurs in it. -/
theorem Single2DSizes_symmetric (b : Nat) (precision : rocfft_precision) (p : Provider)
    (out : List (Nat × Nat)) (h : Single2DSizes b precision p = .ret out) (i j : Nat) :
    (i, j) ∈ out ↔ (j, i) ∈ out := by
  rw [Single2DSizes_eq_filter b precision p out h]
  simp only [List.mem_filter, mem_candidates_iff, accepts_comm _ _ _ p i j]
  tauto

/-- Witness for C17: budget 0, single precision and `DetermineSizes` with 729
units of fuel; the output contains `(256, 4)` and `(4, 256)`. -/
theorem Single2DSizes_symmetric_witness :
    ∃ out, Single2DSizes 0 .rocfft_precision_single (DetermineSizes 729) = .ret out ∧
      ((256, 4) ∈ out ↔ (4, 256) ∈ out) ∧ (256, 4) ∈ out := by
  obtain ⟨out, hout, -, hmem⟩ := Single2DSizes_spec 0 .rocfft_precision_single
    (DetermineSizes 729) (fun d => (fusionAnswer d).1) (fun d => (fusionAnswer d).2)
    (DetermineSizes_fusion 729 (le_refl _))
  refine ⟨out, hout,
    Single2DSizes_symmetric 0 .rocfft_precision_single (DetermineSizes 729) out hout 256 4, ?_⟩
  rw [hmem]
  exact ⟨(mem_fusionSizes_iff 256).1 (by decide), (mem_fusionSizes_iff 4).1 (by decide),
    by decide, by decide⟩

/-- C18: `Single2DSizes` is monotone in the budget.  For every precision and
provider and all budgets `0 < b1 ≤ b2`: whenever the call for `b2` returns a
list, the call for `b1` returns a list too, and it is a sublist (same relative
order) of the one for `b2`.  Hence, whenever the call for budget 0 returns, the
call for any budget `b` returns a sublist of its output. -/
theorem Single2DSizes_budget_monotone (precision : rocfft_precision) (p : Provider) :
    (∀ b1 b2 out2, 0 < b1 → b1 ≤ b2 → Single2DSizes b2 precision p = .ret out2 →
      ∃ out1, Single2DSizes b1 precision p = .ret out1 ∧ out1.Sublist out2) ∧
    (∀ b out0, Single2DSizes 0 precision p = .ret out0 →
      ∃ out, Single2DSizes b precision p = .ret out ∧ out.Sublist out0) :=
  ⟨fun b1 b2 out2 h0 hle h2 =>
      Single2DSizes_sublist precision p b1 b2 (clampLds_mono b1 b2 h0 hle) out2 h2,
    fun b out0 h0 => Single2DSizes_sublist precision p b 0 (clampLds_le_zero b) out0 h0⟩

/-- Witness for C18: budgets 1000 and 5000, single precision and
`DetermineSizes` with 729 units of fuel. -/
theorem Single2DSizes_budget_monotone_witness :
    0 < 1000 ∧ 1000 ≤ 5000 ∧
      ∃ out2, Single2DSizes 5000 .rocfft_precision_single (DetermineSizes 729) = .ret out2 ∧
        ∃ out1, Single2DSizes 1000 .rocfft_precision_single (DetermineSizes 729) = .ret out1 ∧
          out1.Sublist out2 := by
  obtain ⟨out2, hout2, -, -⟩ := Single2DSizes_spec 5000 .rocfft_precision_single
    (DetermineSizes 729) (fun d => (fusionAnswer d).1) (fun d => (fusionAnswer d).2)
    (DetermineSizes_fusion 729 (le_refl _))
  exact ⟨by decide, by decide, out2, hout2,
    (Single2DSizes_budget_monotone .rocfft_precision_single (DetermineSizes 729)).1
      1000 5000 out2 (by decide) (by decide) hout2⟩

/-- C19: the output of `Single2DSizes` never contains the same ordered pair
twice.  The three length families are pairwise disjoint, the nine passes visit
256 candidates without repetition, and whatever list is returned, for every
budget, precision and provider, has no duplicates and at most 256 entries. -/
theorem Single2DSizes_nodup (b : Nat) (precision : rocfft_precision) (p : Provider)
    (out : List (Nat × Nat)) (h : Single2DSizes b precision p = .ret out) :
    out.Nodup ∧ out.length ≤ 256 ∧ candidates.Nodup ∧ candidates.length = 256 ∧
      (∀ d ∈ pow2Sizes, d ∉ pow3Sizes ∧ d ∉ pow5Sizes) ∧ (∀ d ∈ pow3Sizes, d ∉ pow5Sizes) := by
  rw [Single2DSizes_eq_filter b precision p out h]
  refine ⟨candidates_nodup.filter _, ?_, candidates_nodup, candidates_length,
    by decide, by decide⟩
  rw [← candidates_length]
  exact List.length_filter_le _ _

/-- Witness for C19: budget 0, single precision and `DetermineSizes` with 729
units of fuel. -/
theorem Single2DSizes_nodup_witness :
    ∃ out, Single2DSizes 0 .rocfft_precision_single (DetermineSizes 729) = .ret out ∧
      out.Nodup ∧ out.length ≤ 256 := by
  obtain ⟨out, hout, -, -⟩ := Single2DSizes_spec 0 .rocfft_precision_single
    (DetermineSizes 729) (fun d => (fusionAnswer d).1) (fun d => (fusionAnswer d).2)
    (DetermineSizes_fusion 729 (le_refl _))
  have h := Single2DSizes_nodup 0 .rocfft_precision_single (DetermineSizes 729) out hout
  exact ⟨out, hout, h.1, h.2.1⟩

/-- C20: `DetermineSizes` terminates for every length `≥ 1`.  With fuel at
least `length` the call does not run out of fuel; each prime's division loop
returns, having split the remaining value `l` into `l1 * rad ^ k` with
`l1 ≤ l`; and in the composite branch, when `leastNumPerWI > 0` divides the
length, the search leaves through its `break`, so that the finalized
`leastNumPerWI` divides the length and `length / leastNumPerWI ≤ 1024`.  For
length 0 the call runs out of any amount of fuel. -/
theorem DetermineSizes_terminates :
    (∀ fuel length : Nat, 1 ≤ length → length < 2 ^ 64 → length ≤ fuel →
      DetermineSizes fuel length ≠ .timeout) ∧
    (∀ fuel rad l : Nat, 2 ≤ rad → 1 ≤ l → l < 2 ^ 64 → l ≤ fuel →
      ∃ k l1, stripRadix fuel rad l 1 = .ret (l1, rad ^ k) ∧ l = l1 * rad ^ k ∧
        ¬ rad ∣ l1 ∧ 0 < l1 ∧ l1 ≤ l) ∧
    (∀ fuel length step : Nat, 1 ≤ length → length < 2 ^ 64 → length ≤ fuel → 0 < step →
      step ∣ length →
      ∃ m, searchLnpi fuel length step step = .ret m ∧ m ∣ length ∧
        length / m ≤ MAX_WORK_GROUP_SIZE ∧ IsFinalLnpi length step m) ∧
    (∀ fuel : Nat, DetermineSizes fuel 0 = .timeout) := by
  refine ⟨fun fuel length h0 hb hf => DetermineSizes_ne_timeout fuel length h0 hb hf,
    fun fuel rad l hrad hl hb hf => stripRadix_round rad hrad fuel l hl hf hb, ?_,
    DetermineSizes_zero⟩
  intro fuel length step h0 hb hf hs hd
  have hle : step ≤ length := Nat.le_of_dvd h0 hd
  obtain ⟨m, hm, hfin⟩ := searchLnpi_spec length step hb hs hd fuel step hs (dvd_refl _) hle
    (by omega) (fun m1 hm1 hd1 hlt _ => absurd (Nat.le_of_dvd hm1 hd1) (by omega))
  exact ⟨m, hm, hfin.2.2.1, hfin.2.2.2.1, hfin⟩

/-- Witness for C20: length 12. -/
theorem DetermineSizes_terminates_witness :
    1 ≤ 12 ∧ 12 < 2 ^ 64 ∧ DetermineSizes 12 12 ≠ .timeout ∧
      DetermineSizes 12 0 = .timeout :=
  ⟨by decide, by norm_num,
    DetermineSizes_terminates.1 12 12 (by decide) (by norm_num) (le_refl _),
    DetermineSizes_terminates.2.2.2 12⟩

end RadixTable
